import Mathlib

/-!
# GoodFaith consistency engine — verification development

Shallow embedding of the GoodFaith moral-consistency engine:
the consistency scorer and framework-alignment analyzer
(`lib/core/analysis.ts`), the candidate generator
(`lib/rag/embedding.ts`), the contradiction judge
(`lib/core/contradictions.ts`), session storage mutation
(`lib/core/storage.ts`), answer submission and contradiction
resolution (`lib/rag/index.ts`), and the stage-progression guard.

Conventions of the embedding:
* JavaScript numbers are modelled as exact arithmetic (`ℚ`/`ℤ`/`ℕ`);
  `Math.round` becomes `jsRound q = ⌊q + 1/2⌋` (round half toward +∞,
  which is exactly JavaScript semantics on half-integers).
* Strings are Lean `String`s; the lexical matching of the judge works
  on `List Char` with ASCII lowercasing, mirroring `toLowerCase` and
  `String.prototype.includes` on the ASCII texts the engine handles.
* External oracles (LLM, embedding index) are passed in as explicit
  parameters: free-text verdicts as `String`s, an oracle analysis as an
  `Option`, cosine similarities as a function of the compared text,
  mirroring that the Ollama client caches responses per prompt.
* Fallible operations (`throw` in the source) return `Option`.
-/

namespace GoodFaith

/-! ## String utilities (models of `toLowerCase` / `includes` / `startsWith`) -/

/-- ASCII lowercasing of a character list; models `String.prototype.toLowerCase`
on the ASCII texts handled by the engine. -/
def lowerStr (s : List Char) : List Char := s.map Char.toLower

/-- `containsSub pat s` models `s.includes(pat)` (substring containment). -/
def containsSub (pat : List Char) : List Char → Bool
  | [] => pat.isEmpty
  | c :: rest => pat.isPrefixOf (c :: rest) || containsSub pat rest

/-- Substring containment lifted to `String`. -/
def strIncludes (pat s : String) : Bool := containsSub pat.toList s.toList

/-- Models `s.toLowerCase().startsWith(pat)`. -/
def lowerStartsWith (pat s : String) : Bool := pat.toList.isPrefixOf (lowerStr s.toList)

/-- JavaScript `Math.round`: round half toward positive infinity. -/
def jsRound (q : ℚ) : ℤ := ⌊q + 1/2⌋

/-! ## Data model (`lib/types`) -/

/-- A question of the knowledge base (`Question` in `lib/types`). -/
structure Question where
  id : String
  text : String
  stage : Nat
  tags : List String
  relatedQuestionIds : Option (List String) := none
  deriving Repr, DecidableEq

/-- An answer stored in a session (`UserAnswer`). -/
structure UserAnswer where
  questionId : String
  answer : String
  timestamp : String := ""
  deriving Repr, DecidableEq

/-- The resolution record of a contradiction
(`Contradiction['resolution']`). -/
structure Resolution where
  explanation : String
  overwrittenQuestionId : String
  newAnswer : Option String := none
  timestamp : String
  deriving Repr, DecidableEq

/-- A detected contradiction between two answers (`Contradiction`). -/
structure Contradiction where
  id : String
  questionIds : List String
  answers : List String
  explanation : String
  resolved : Bool
  resolution : Option Resolution := none
  deriving Repr, DecidableEq

/-- A moral framework of the knowledge base (`MoralFramework`). -/
structure MoralFramework where
  id : String
  name : String
  description : String := ""
  principles : List String
  keyThinkers : List String := []
  deriving Repr, DecidableEq

/-- A Kohlberg stage record (`KohlbergStage`). -/
structure KohlbergStage where
  stage : Nat
  name : String
  description : String := ""
  reasoning : String := ""
  deriving Repr, DecidableEq

/-- A user session (`UserSession`): the mutable state of the engine. -/
structure UserSession where
  userId : String
  answers : List UserAnswer
  contradictions : List Contradiction
  currentStage : Nat
  completedStages : List Nat
  deriving Repr, DecidableEq

/-! ## Consistency scorer (`analyzeUserFramework`, `lib/core/analysis.ts`) -/

/-- Count of contradictions with `resolved = true`
(`session.contradictions.filter(c => c.resolved).length`). -/
def resolvedCount (cs : List Contradiction) : Nat :=
  (cs.filter (·.resolved)).length

/-- Count of contradictions with `resolved = false`. -/
def unresolvedCount (cs : List Contradiction) : Nat :=
  (cs.filter (fun c => !c.resolved)).length

/-- The heuristic base consistency score of `analyzeUserFramework`
(`lib/core/analysis.ts` lines 38–52): start at 100; when any
contradictions exist, subtract 10 per unresolved one, add back 5 per
resolved one, and clamp into [0, 100]. -/
def baseConsistencyScore (cs : List Contradiction) : ℤ :=
  let total : ℤ := cs.length
  let resolved : ℤ := resolvedCount cs
  if 0 < total then
    max 0 (min 100 (100 - (total - resolved) * 10 + resolved * 5))
  else 100

/-- Modelled from the spec: `score = clamp(100 − 10·U + 5·R, 0, 100)` where
`U` is the unresolved and `R` the resolved contradiction count (spec §4.4). -/
def specClampScore (U R : ℕ) : ℤ :=
  max 0 (min 100 (100 - 10 * (U : ℤ) + 5 * (R : ℤ)))

/-- The final consistency score of `analyzeUserFramework`: with at least 3
answers and a parseable oracle analysis carrying score `s`, the blend
`Math.round((heuristicScore + s) / 2)`; otherwise the heuristic score
(the oracle path is skipped or falls back on error). The oracle outcome
is the `oracle` parameter (`none` models a failed or unparseable call). -/
def analyzedConsistencyScore (session : UserSession) (oracle : Option ℚ) : ℤ :=
  let h := baseConsistencyScore session.contradictions
  if 3 ≤ session.answers.length then
    match oracle with
    | some s => jsRound (((h : ℚ) + s) / 2)
    | none => h
  else h

/-! ### Helper lemmas -/

theorem length_filter_not_add {α : Type} (p : α → Bool) (l : List α) :
    (l.filter (fun a => !p a)).length + (l.filter p).length = l.length := by
  induction l with
  | nil => rfl
  | cons a t ih =>
    by_cases h : p a <;> simp [List.filter_cons, h, ← ih] <;> omega

theorem baseConsistencyScore_nonneg (cs : List Contradiction) :
    0 ≤ baseConsistencyScore cs := by
  simp only [baseConsistencyScore]
  split
  · exact le_max_left 0 _
  · norm_num

theorem baseConsistencyScore_le (cs : List Contradiction) :
    baseConsistencyScore cs ≤ 100 := by
  simp only [baseConsistencyScore]
  split
  · exact max_le (by norm_num) (min_le_left _ _)
  · norm_num

theorem jsRound_nonneg {q : ℚ} (h : 0 ≤ q) : 0 ≤ jsRound q := by
  unfold jsRound
  rw [Int.le_floor]
  push_cast
  linarith

theorem jsRound_le_of_le {q : ℚ} {z : ℤ} (hb : q ≤ (z : ℚ)) :
    jsRound q ≤ z := by
  unfold jsRound
  have : ⌊q + 1/2⌋ < z + 1 := by
    apply Int.floor_lt.mpr
    push_cast
    linarith
  omega

/-! ## C1: heuristic consistency score equals the clamp formula -/

/-- **C1.** For every contradiction list, the heuristic consistency score of
`analyzeUserFramework` equals `clamp(100 − 10·U + 5·R, 0, 100)` where `U` is
the unresolved and `R` the resolved contradiction count; and a session with
2 unresolved and 1 resolved contradiction scores 85. -/
theorem C1_heuristic_score_clamp_formula :
    (∀ cs : List Contradiction,
      baseConsistencyScore cs = specClampScore (unresolvedCount cs) (resolvedCount cs)) ∧
    baseConsistencyScore
      [⟨"c1", ["q1", "q2"], ["a", "b"], "e1", false, none⟩,
       ⟨"c2", ["q1", "q3"], ["a", "c"], "e2", false, none⟩,
       ⟨"c3", ["q2", "q3"], ["b", "c"], "e3", true, none⟩] = 85 := by
  constructor
  · intro cs
    have hsum := length_filter_not_add (·.resolved) cs
    simp only [baseConsistencyScore, specClampScore, unresolvedCount, resolvedCount]
    split
    · congr 1
      congr 1
      omega
    · rename_i h
      have hlen : cs.length = 0 := by exact_mod_cast by omega
      have hnil : cs = [] := List.length_eq_zero.mp hlen
      subst hnil
      simp [List.filter]
  · rfl

/-! ## C2: the analyzed score and the oracle blend -/

/-- **C2 counterexample.** The claim that the produced consistency score is
always within [0, 100] fails: with 3 answers, no contradictions (heuristic
score 100) and an oracle analysis whose unvalidated score is 300, the blend
`round((100 + 300)/2)` is 200. -/
theorem C2_counterexample :
    analyzedConsistencyScore
      ⟨"u", [⟨"q1", "a1", ""⟩, ⟨"q2", "a2", ""⟩, ⟨"q3", "a3", ""⟩], [], 1, []⟩
      (some 300) = 200 := by
  norm_num [analyzedConsistencyScore, baseConsistencyScore, jsRound]

/-- **C2 (amended).** For every session state (hence after any sequence of
answer/contradiction/resolution operations) the consistency score produced by
the analysis lies within [0, 100] — including the blend path taken with at
least 3 answers — provided the oracle-provided score itself lies within
[0, 100]; the code does not validate the oracle score, so an out-of-range
oracle value escapes the bound (see the counterexample). -/
theorem C2_score_bounds (session : UserSession) (oracle : Option ℚ)
    (hor : ∀ s, oracle = some s → 0 ≤ s ∧ s ≤ 100) :
    0 ≤ analyzedConsistencyScore session oracle ∧
      analyzedConsistencyScore session oracle ≤ 100 := by
  have hb0 := baseConsistencyScore_nonneg session.contradictions
  have hb1 := baseConsistencyScore_le session.contradictions
  unfold analyzedConsistencyScore
  split
  · cases horacle : oracle with
    | none => exact ⟨hb0, hb1⟩
    | some s =>
      obtain ⟨hs0, hs1⟩ := hor s horacle
      constructor
      · apply jsRound_nonneg
        have : (0 : ℚ) ≤ (baseConsistencyScore session.contradictions : ℚ) := by
          exact_mod_cast hb0
        linarith
      · apply jsRound_le_of_le (z := 100)
        have : (baseConsistencyScore session.contradictions : ℚ) ≤ 100 := by
          exact_mod_cast hb1
        push_cast
        linarith
  · exact ⟨hb0, hb1⟩

/-- **C2 witness.** The amended bound instantiated at a concrete session with
3 answers, one resolved contradiction and oracle score 90. -/
theorem C2_score_bounds_witness :
    0 ≤ analyzedConsistencyScore
        ⟨"u", [⟨"q1", "a1", ""⟩, ⟨"q2", "a2", ""⟩, ⟨"q3", "a3", ""⟩],
         [⟨"c1", ["q1", "q2"], ["a", "b"], "e", true, none⟩], 1, []⟩ (some 90) ∧
      analyzedConsistencyScore
        ⟨"u", [⟨"q1", "a1", ""⟩, ⟨"q2", "a2", ""⟩, ⟨"q3", "a3", ""⟩],
         [⟨"c1", ["q1", "q2"], ["a", "b"], "e", true, none⟩], 1, []⟩ (some 90) ≤ 100 :=
  C2_score_bounds _ (some 90)
    (by intro s hs; cases hs; norm_num)

/-! ## Framework alignment analyzer (`performHeuristicAnalysis`,
`lib/core/analysis.ts` lines 96–208) -/

/-- Insert-or-replace on an insertion-ordered record, modelling the
JavaScript object assignment `record[key] = value`: replaces the value when
the key is present, otherwise appends a new key at the end. -/
def recSet (m : List (String × ℚ)) (k : String) (v : ℚ) : List (String × ℚ) :=
  if m.any (fun p => p.1 = k) then m.map (fun p => if p.1 = k then (k, v) else p)
  else m ++ [(k, v)]

/-- The recency weight `1 + recentFactor * (index / answers.length)` with
`recentFactor = 1.5`. -/
def recencyWeight (index total : ℕ) : ℚ := 1 + (3/2) * ((index : ℚ) / (total : ℚ))

/-- The accumulated `tagCounts[tag]`: each answer whose question is found
adds its recency weight once per occurrence of `tag` in that question's
tag list (the source's `question.tags.forEach`). -/
def tagCountOf (answers : List UserAnswer) (questions : List Question)
    (tag : String) : ℚ :=
  (answers.enum.map (fun p =>
    match questions.find? (fun q => q.id = p.2.questionId) with
    | some q => (q.tags.count tag : ℚ) * recencyWeight p.1 answers.length
    | none => 0)).sum

/-- The key list of a JavaScript object built by repeated insertion:
first occurrences, in insertion order. -/
def jsKeys (l : List String) : List String :=
  l.foldl (fun acc t => if acc.contains t then acc else acc ++ [t]) []

/-- The keys of the `tagCounts` object: every tag of every answered
question that is found, deduplicated in insertion order. -/
def tagKeys (answers : List UserAnswer) (questions : List Question) : List String :=
  jsKeys (answers.foldl (fun acc a =>
    match questions.find? (fun q => q.id = a.questionId) with
    | some q => acc ++ q.tags
    | none => acc) [])

/-- Lexical similarity of a tag and a principle: substring containment in
either direction on the lowercased strings. -/
def principleTagMatch (tag principle : String) : Bool :=
  containsSub (lowerStr principle.toList) (lowerStr tag.toList) ||
  containsSub (lowerStr tag.toList) (lowerStr principle.toList)

/-- The fixed `frameworkPatterns` keyword table of
`performHeuristicAnalysis`. -/
def frameworkPatterns : List (String × List String) :=
  [("deontological", ["duty", "obligation", "right", "wrong", "moral law",
      "universal", "principle", "categorical", "rule"]),
   ("utilitarian", ["happiness", "benefit", "consequences", "outcome",
      "greatest good", "utility", "maximize", "result"]),
   ("virtueEthics", ["character", "virtue", "excellence", "flourish",
      "good person", "integrity", "habit", "wisdom"]),
   ("careEthics", ["relationship", "care", "empathy", "compassion",
      "connection", "needs", "vulnerable", "dependent"]),
   ("contractarianism", ["agreement", "contract", "consent", "mutual",
      "fairness", "justice", "social", "equal"])]

/-- `patternMatches[fid]`: over every keyword of the framework's fixed
pattern list, the number of answers whose lowercased text contains it;
0 for a framework id absent from the table (`patternMatches[id] || 0`). -/
def patternMatchCount (answers : List UserAnswer) (fid : String) : ℕ :=
  match frameworkPatterns.find? (fun p => p.1 = fid) with
  | some p => (p.2.map (fun pat =>
      (answers.filter (fun a => containsSub pat.toList (lowerStr a.answer.toList))).length)).sum
  | none => 0

/-- A framework's raw alignment score: for every principle, the summed
`tagCounts` of every stored tag key lexically matching it, plus twice the
keyword pattern matches. -/
def alignmentScore (answers : List UserAnswer) (questions : List Question)
    (fw : MoralFramework) : ℚ :=
  (fw.principles.map (fun principle =>
    ((tagKeys answers questions).map (fun tag =>
      if principleTagMatch tag principle then tagCountOf answers questions tag
      else 0)).sum)).sum
  + 2 * (patternMatchCount answers fw.id : ℚ)

/-- The `frameworkAlignment` record after both `forEach` passes: every
framework id initialized to 0, then set to its raw alignment score. -/
def scoredRecord (answers : List UserAnswer) (questions : List Question)
    (frameworks : List MoralFramework) : List (String × ℚ) :=
  frameworks.foldl (fun m fw => recSet m fw.id (alignmentScore answers questions fw))
    (frameworks.foldl (fun m fw => recSet m fw.id 0) [])

/-- `totalAlignment`: the sum of the record's values. -/
def totalAlignment (answers : List UserAnswer) (questions : List Question)
    (frameworks : List MoralFramework) : ℚ :=
  ((scoredRecord answers questions frameworks).map (·.2)).sum

/-- The normalized `frameworkAlignment` percentages: when the total raw
score is positive, each entry becomes `Math.round(score / total * 100)`;
otherwise every key gets the equal share `Math.round(100 / #keys)`. -/
def heuristicFrameworkAlignment (answers : List UserAnswer)
    (questions : List Question) (frameworks : List MoralFramework) :
    List (String × ℤ) :=
  let record := scoredRecord answers questions frameworks
  let T := (record.map (·.2)).sum
  if 0 < T then record.map (fun p => (p.1, jsRound (p.2 / T * 100)))
  else record.map (fun p => (p.1, jsRound (100 / (record.length : ℚ))))

/-! ### Lemmas about the alignment record -/

theorem recSet_forall {P : ℚ → Prop} {m : List (String × ℚ)} {k : String} {v : ℚ}
    (hm : ∀ p ∈ m, P p.2) (hv : P v) : ∀ p ∈ recSet m k v, P p.2 := by
  intro p hp
  unfold recSet at hp
  split at hp
  · obtain ⟨p₀, hp₀, hp₀e⟩ := List.mem_map.mp hp
    by_cases h : p₀.1 = k
    · simp only [h, if_pos rfl] at hp₀e
      subst hp₀e; exact hv
    · simp only [if_neg h] at hp₀e
      subst hp₀e; exact hm _ hp₀
  · rcases List.mem_append.mp hp with h | h
    · exact hm _ h
    · simp only [List.mem_singleton] at h
      subst h; exact hv

theorem foldl_recSet_forall {P : ℚ → Prop} (g : MoralFramework → ℚ)
    (l : List MoralFramework) (m : List (String × ℚ))
    (hm : ∀ p ∈ m, P p.2) (hg : ∀ fw, P (g fw)) :
    ∀ p ∈ l.foldl (fun m fw => recSet m fw.id (g fw)) m, P p.2 := by
  induction l generalizing m with
  | nil => exact hm
  | cons fw rest ih =>
    exact ih _ (recSet_forall hm (hg fw))

theorem list_sum_nonneg {l : List ℚ} (h : ∀ x ∈ l, 0 ≤ x) : 0 ≤ l.sum := by
  induction l with
  | nil => simp
  | cons a t ih =>
    simp only [List.sum_cons]
    have := h a (List.mem_cons_self a t)
    have := ih (fun x hx => h x (List.mem_cons_of_mem a hx))
    linarith

theorem recencyWeight_nonneg (i n : ℕ) : 0 ≤ recencyWeight i n := by
  unfold recencyWeight
  have : (0 : ℚ) ≤ (i : ℚ) / (n : ℚ) :=
    div_nonneg (Nat.cast_nonneg i) (Nat.cast_nonneg n)
  linarith

theorem tagCountOf_nonneg (answers : List UserAnswer) (questions : List Question)
    (tag : String) : 0 ≤ tagCountOf answers questions tag := by
  apply list_sum_nonneg
  intro x hx
  obtain ⟨p, _, hpe⟩ := List.mem_map.mp hx
  subst hpe
  split
  · exact mul_nonneg (Nat.cast_nonneg _) (recencyWeight_nonneg _ _)
  · exact le_refl 0

theorem alignmentScore_nonneg (answers : List UserAnswer) (questions : List Question)
    (fw : MoralFramework) : 0 ≤ alignmentScore answers questions fw := by
  unfold alignmentScore
  have h1 : (0:ℚ) ≤ (fw.principles.map (fun principle =>
      ((tagKeys answers questions).map (fun tag =>
        if principleTagMatch tag principle then tagCountOf answers questions tag
        else 0)).sum)).sum := by
    apply list_sum_nonneg
    intro x hx
    obtain ⟨pr, _, hpe⟩ := List.mem_map.mp hx
    subst hpe
    apply list_sum_nonneg
    intro y hy
    obtain ⟨t, _, hte⟩ := List.mem_map.mp hy
    subst hte
    split
    · exact tagCountOf_nonneg _ _ _
    · exact le_refl 0
  have h2 : (0:ℚ) ≤ 2 * (patternMatchCount answers fw.id : ℚ) := by positivity
  linarith

theorem scoredRecord_values_nonneg (answers : List UserAnswer)
    (questions : List Question) (frameworks : List MoralFramework) :
    ∀ p ∈ scoredRecord answers questions frameworks, 0 ≤ p.2 := by
  unfold scoredRecord
  apply foldl_recSet_forall
  · apply foldl_recSet_forall
    · intro p hp; cases hp
    · intro _; exact le_refl 0
  · intro fw; exact alignmentScore_nonneg answers questions fw

theorem recSet_length_le (m : List (String × ℚ)) (k : String) (v : ℚ) :
    m.length ≤ (recSet m k v).length := by
  unfold recSet
  split
  · simp
  · simp

theorem foldl_recSet_length (g : MoralFramework → ℚ) (l : List MoralFramework)
    (m : List (String × ℚ)) :
    m.length ≤ (l.foldl (fun m fw => recSet m fw.id (g fw)) m).length := by
  induction l generalizing m with
  | nil => exact le_refl _
  | cons fw rest ih =>
    exact le_trans (recSet_length_le m fw.id (g fw)) (ih _)

theorem scoredRecord_ne_nil (answers : List UserAnswer) (questions : List Question)
    {frameworks : List MoralFramework} (hne : frameworks ≠ []) :
    0 < (scoredRecord answers questions frameworks).length := by
  obtain ⟨fw, rest, rfl⟩ := List.exists_cons_of_ne_nil hne
  unfold scoredRecord
  have h1 : 1 ≤ ((fw :: rest).foldl (fun m fw => recSet m fw.id ((0:ℚ))) []).length := by
    simp only [List.foldl_cons]
    have : (recSet [] fw.id 0).length = 1 := by rfl
    calc 1 = (recSet [] fw.id 0).length := this.symm
      _ ≤ _ := foldl_recSet_length _ rest _
  calc 0 < ((fw :: rest).foldl (fun m fw => recSet m fw.id ((0:ℚ))) []).length := h1
    _ ≤ _ := foldl_recSet_length _ (fw :: rest) _

theorem jsRound_le (q : ℚ) : (jsRound q : ℚ) ≤ q + 1/2 := Int.floor_le _

theorem lt_jsRound (q : ℚ) : q - 1/2 < (jsRound q : ℚ) := by
  have := Int.sub_one_lt_floor (q + 1/2)
  unfold jsRound
  linarith

theorem abs_jsRound_sum_le (l : List ℚ) :
    |((l.map (fun x => (jsRound x : ℚ))).sum - l.sum)| ≤ (l.length : ℚ) / 2 := by
  induction l with
  | nil => simp
  | cons a t ih =>
    simp only [List.map_cons, List.sum_cons, List.length_cons]
    have h1 := jsRound_le a
    have h2 := lt_jsRound a
    have h3 : |(jsRound a : ℚ) - a| ≤ 1/2 := abs_le.mpr ⟨by linarith, by linarith⟩
    calc |((jsRound a : ℚ) + (t.map (fun x => (jsRound x : ℚ))).sum - (a + t.sum))|
        = |((jsRound a : ℚ) - a) + ((t.map (fun x => (jsRound x : ℚ))).sum - t.sum)| := by
          ring_nf
      _ ≤ |(jsRound a : ℚ) - a| + |((t.map (fun x => (jsRound x : ℚ))).sum - t.sum)| :=
          abs_add _ _
      _ ≤ 1/2 + (t.length : ℚ) / 2 := by linarith
      _ ≤ ((t.length : ℚ) + 1) / 2 := by ring_nf; linarith
      _ = ((t.length + 1 : ℕ) : ℚ) / 2 := by push_cast; ring

theorem sum_map_div_mul (l : List (String × ℚ)) (T : ℚ) :
    (l.map (fun p => p.2 / T * 100)).sum = (l.map (·.2)).sum / T * 100 := by
  induction l with
  | nil => simp
  | cons a t ih =>
    simp only [List.map_cons, List.sum_cons, ih]
    ring

theorem int_sum_cast_map {α : Type} (l : List α) (f : α → ℤ) :
    (((l.map f).sum : ℤ) : ℚ) = (l.map (fun a => (f a : ℚ))).sum := by
  induction l with
  | nil => simp
  | cons a t ih => simp [ih]

theorem sum_map_const_int (l : List (String × ℚ)) (c : ℤ) :
    (l.map (fun _ => c)).sum = (l.length : ℤ) * c := by
  induction l with
  | nil => simp
  | cons a t ih => simp [ih]; ring

/-! ## C3: the framework-alignment distribution -/

/-- **C3 counterexample.** The claim that the percentages always sum to 100
within ±1 fails: with five frameworks whose raw alignment scores are
1, 1, 1, 1, 4 (one answer whose question carries one matching tag per
principle), the rounded percentages are 13, 13, 13, 13, 50, summing to 102. -/
theorem C3_counterexample :
    heuristicFrameworkAlignment [⟨"q1", "zz", ""⟩]
        [⟨"q1", "t", 1, ["a", "b", "c", "d", "v", "w", "x", "y"], none⟩]
        [⟨"f1", "F1", "", ["a"], []⟩, ⟨"f2", "F2", "", ["b"], []⟩,
         ⟨"f3", "F3", "", ["c"], []⟩, ⟨"f4", "F4", "", ["d"], []⟩,
         ⟨"f5", "F5", "", ["v", "w", "x", "y"], []⟩]
      = [("f1", 13), ("f2", 13), ("f3", 13), ("f4", 13), ("f5", 50)] ∧
    ¬ (|(13 + (13 + (13 + (13 + (50 + 0)))) : ℤ) - 100| ≤ 1) := by
  constructor
  · norm_num +decide [heuristicFrameworkAlignment, scoredRecord, recSet,
      alignmentScore, tagKeys, jsKeys, tagCountOf, recencyWeight,
      patternMatchCount, frameworkPatterns, principleTagMatch, containsSub,
      lowerStr, jsRound, List.find?, List.enum, List.count]
  · decide

/-- **C3 (amended).** Every framework-alignment output of the heuristic
analyzer assigns a non-negative percentage to each record entry, and the
percentages sum to 100 within ±(half the number of entries) — the per-entry
rounding errors can accumulate, so ±1 holds only for up to two frameworks
(see the counterexample, which reaches 102 with five) — and when the total
raw alignment score is not positive, every framework receives the equal
share `round(100 / number-of-frameworks)`. -/
theorem C3_alignment_normalization (answers : List UserAnswer)
    (questions : List Question) (frameworks : List MoralFramework)
    (hne : frameworks ≠ []) :
    (∀ p ∈ heuristicFrameworkAlignment answers questions frameworks, 0 ≤ p.2) ∧
    2 * |((heuristicFrameworkAlignment answers questions frameworks).map (·.2)).sum - 100|
      ≤ ((heuristicFrameworkAlignment answers questions frameworks).length : ℤ) ∧
    (totalAlignment answers questions frameworks ≤ 0 →
      ∀ p ∈ heuristicFrameworkAlignment answers questions frameworks,
        p.2 = jsRound (100 / ((scoredRecord answers questions frameworks).length : ℚ))) := by
  have hvals := scoredRecord_values_nonneg answers questions frameworks
  have hlen := scoredRecord_ne_nil answers questions hne
  simp only [heuristicFrameworkAlignment, totalAlignment]
  split
  · rename_i hT
    refine ⟨?_, ?_, ?_⟩
    · intro p hp
      obtain ⟨p₀, hp₀, hpe⟩ := List.mem_map.mp hp
      subst hpe
      exact jsRound_nonneg
        (mul_nonneg (div_nonneg (hvals p₀ hp₀) (le_of_lt hT)) (by norm_num))
    · set record := scoredRecord answers questions frameworks with hrec
      set T : ℚ := (record.map (·.2)).sum with hTdef
      have hmm : (record.map (fun p => ((p.1, jsRound (p.2 / T * 100)) : String × ℤ))).map (·.2)
          = (record.map (fun p => p.2 / T * 100)).map (fun x => jsRound x) := by
        simp only [List.map_map]
        rfl
      rw [hmm]
      have hsum100 : (record.map (fun p => p.2 / T * 100)).sum = 100 := by
        rw [sum_map_div_mul]
        rw [div_self (ne_of_gt hT)]
        norm_num
      set l : List ℚ := record.map (fun p => p.2 / T * 100) with hl
      have habs := abs_jsRound_sum_le l
      rw [hsum100] at habs
      have hcast : (((l.map (fun x => jsRound x)).sum : ℤ) : ℚ)
          = (l.map (fun x => (jsRound x : ℚ))).sum :=
        int_sum_cast_map l (fun x => jsRound x)
      have hlength : l.length = record.length := by simp [hl]
      have hq : 2 * |(((l.map (fun x => jsRound x)).sum : ℤ) : ℚ) - 100|
          ≤ ((record.length : ℕ) : ℚ) := by
        rw [hcast, ← hlength]
        calc 2 * |(l.map (fun x => (jsRound x : ℚ))).sum - 100|
            ≤ 2 * ((l.length : ℚ) / 2) := by
              have := habs
              have h2 : (0:ℚ) ≤ 2 := by norm_num
              nlinarith [abs_nonneg ((l.map (fun x => (jsRound x : ℚ))).sum - 100)]
          _ = (l.length : ℚ) := by ring
      have : 2 * |((l.map (fun x => jsRound x)).sum : ℤ) - 100| ≤ ((record.length : ℕ) : ℤ) := by
        exact_mod_cast (by push_cast at hq ⊢; exact hq :
          2 * |(((l.map (fun x => jsRound x)).sum : ℤ) : ℚ) - (100:ℚ)| ≤ ((record.length : ℕ) : ℚ))
      simpa [hl, List.length_map] using this
    · intro hT0
      exact absurd hT0 (not_le.mpr hT)
  · rename_i hT
    set record := scoredRecord answers questions frameworks with hrec
    refine ⟨?_, ?_, ?_⟩
    · intro p hp
      obtain ⟨p₀, hp₀, hpe⟩ := List.mem_map.mp hp
      subst hpe
      exact jsRound_nonneg (by positivity)
    · have hmm : (record.map (fun p =>
            ((p.1, jsRound (100 / (record.length : ℚ))) : String × ℤ))).map (·.2)
          = record.map (fun _ => jsRound (100 / (record.length : ℚ))) := by
        simp only [List.map_map]
        rfl
      rw [hmm, sum_map_const_int]
      have hn : (1 : ℚ) ≤ (record.length : ℚ) := by exact_mod_cast hlen
      have hnpos : (0 : ℚ) < (record.length : ℚ) := by linarith
      have h1 := jsRound_le (100 / (record.length : ℚ))
      have h2 := lt_jsRound (100 / (record.length : ℚ))
      have hdiv : 100 / (record.length : ℚ) * (record.length : ℚ) = 100 :=
        div_mul_cancel₀ _ (ne_of_gt hnpos)
      have hb1 : (record.length : ℚ) * (jsRound (100 / (record.length : ℚ)) : ℚ) - 100
          ≤ (record.length : ℚ) / 2 := by
        have hmul := mul_le_mul_of_nonneg_right h1 (le_of_lt hnpos)
        rw [add_mul, hdiv] at hmul
        nlinarith
      have hb2 : -((record.length : ℚ) / 2)
          ≤ (record.length : ℚ) * (jsRound (100 / (record.length : ℚ)) : ℚ) - 100 := by
        have hmul := mul_lt_mul_of_pos_right h2 hnpos
        rw [sub_mul, hdiv] at hmul
        nlinarith
      have habs2 : |(record.length : ℚ) * (jsRound (100 / (record.length : ℚ)) : ℚ) - 100|
          ≤ (record.length : ℚ) / 2 := abs_le.mpr ⟨hb2, hb1⟩
      have hq' : (2 : ℚ) * ((|(record.length : ℤ) * jsRound (100 / (record.length : ℚ)) - 100| : ℤ) : ℚ)
          ≤ ((record.length : ℤ) : ℚ) := by
        push_cast
        linarith
      have hq : 2 * |(record.length : ℤ) * jsRound (100 / (record.length : ℚ)) - 100|
          ≤ (record.length : ℤ) := by exact_mod_cast hq'
      rw [List.length_map]
      exact hq
    · intro _ p hp
      obtain ⟨p₀, _, hpe⟩ := List.mem_map.mp hp
      subst hpe
      rfl

/-- **C3 witness.** The amended property instantiated at one framework and
no answers: the zero-total branch assigns the equal share round(100/1) = 100. -/
theorem C3_alignment_normalization_witness :
    (∀ p ∈ heuristicFrameworkAlignment [] [] [⟨"f1", "F1", "", ["a"], []⟩], 0 ≤ p.2) ∧
    2 * |((heuristicFrameworkAlignment [] [] [⟨"f1", "F1", "", ["a"], []⟩]).map (·.2)).sum - 100|
      ≤ ((heuristicFrameworkAlignment [] [] [⟨"f1", "F1", "", ["a"], []⟩]).length : ℤ) ∧
    (totalAlignment [] [] [⟨"f1", "F1", "", ["a"], []⟩] ≤ 0 →
      ∀ p ∈ heuristicFrameworkAlignment [] [] [⟨"f1", "F1", "", ["a"], []⟩],
        p.2 = jsRound (100 / ((scoredRecord [] [] [⟨"f1", "F1", "", ["a"], []⟩]).length : ℚ))) :=
  C3_alignment_normalization [] [] [⟨"f1", "F1", "", ["a"], []⟩] (by simp)

/-! ## Candidate generator (`findPotentialContradictions`,
`lib/rag/embedding.ts` lines 138–253)

Similarity weights are stored in hundredths of the source's floating-point
constants (100 = 1.0 explicit link, 80 + 5·overlap = 0.8 + 0.05·overlap tag
overlap, 60 = 0.6 vector neighbor, 70 = 0.7 answer similarity), an
order-preserving rescaling of constants that are all exact multiples of
0.05. The cosine similarity against a previous answer stays a rational and
is compared against 3/4, as in the source. -/

/-- An entry of the `similarQuestions` accumulator. -/
structure Candidate where
  question : Question
  similarity : ℤ
  deriving Repr, DecidableEq

/-- An element of the `previousAnswers` argument. -/
structure PrevAnswer where
  questionId : String
  answer : String
  deriving Repr, DecidableEq

/-- A returned potential contradiction. -/
structure PotentialContradiction where
  question : Question
  similarity : ℤ
  previousAnswer : String
  deriving Repr, DecidableEq

/-- Ambient state of the `EmbeddingService`: `questionsMetadata`, the
neighbor indices the vector index returns for the current question's
embedding, and the cosine similarity of each previous answer's text against
the current answer's embedding (the Ollama client caches embeddings per
text, so the similarity is a function of the compared text). -/
structure EmbedEnv where
  metadata : List Question
  neighbors : List Nat
  cosSim : String → ℚ

/-- Step 1 — explicitly related questions, pushed with similarity 1.0. -/
def explicitStep (env : EmbedEnv) (currentQuestion : Question) : List Candidate :=
  (currentQuestion.relatedQuestionIds.getD []).foldl (fun acc relatedId =>
    match env.metadata.find? (fun q => q.id = relatedId) with
    | some rq => acc ++ [⟨rq, 100⟩]
    | none => acc) []

/-- Tag overlap count:
`question.tags.filter(tag => currentQuestion.tags.includes(tag)).length`. -/
def overlapCount (currentQuestion q : Question) : ℕ :=
  (q.tags.filter (fun tag => currentQuestion.tags.contains tag)).length

/-- Step 2 — tag-overlap scan over the metadata: skip the current question
and already-included ids; require at least 2 matching tags; push with
similarity `0.8 + 0.05·overlap`. -/
def tagStep (env : EmbedEnv) (questionId : String) (currentQuestion : Question)
    (acc₀ : List Candidate) : List Candidate :=
  env.metadata.foldl (fun acc q =>
    if q.id = questionId ∨ acc.any (fun sq => sq.question.id = q.id) then acc
    else if 2 ≤ overlapCount currentQuestion q then
      acc ++ [⟨q, 80 + 5 * (overlapCount currentQuestion q : ℤ)⟩]
    else acc) acc₀

/-- Step 3 — vector neighbors of the current question's text, only when
fewer than 5 candidates were gathered so far, pushed with similarity 0.6.
(An out-of-range neighbor index would throw in the source; the model skips
it, and all concrete environments used below are in range.) -/
def vectorStep (env : EmbedEnv) (questionId : String)
    (acc₀ : List Candidate) : List Candidate :=
  if acc₀.length < 5 then
    env.neighbors.foldl (fun acc idx =>
      match env.metadata.get? idx with
      | some q =>
        if q.id = questionId ∨ acc.any (fun sq => sq.question.id = q.id) then acc
        else acc ++ [⟨q, 60⟩]
      | none => acc) acc₀
  else acc₀

/-- Step 4 — answer-to-answer similarity for substantial answers (length
over 20): a previous answer whose cosine similarity exceeds 0.75 pushes its
question with similarity 0.7. -/
def answerSimStep (env : EmbedEnv) (answer : String)
    (previousAnswers : List PrevAnswer) (acc₀ : List Candidate) : List Candidate :=
  if 20 < answer.length then
    previousAnswers.foldl (fun acc pa =>
      if acc.any (fun sq => sq.question.id = pa.questionId) then acc
      else
        match env.metadata.find? (fun q => q.id = pa.questionId) with
        | none => acc
        | some q => if 3/4 < env.cosSim pa.answer then acc ++ [⟨q, 70⟩] else acc) acc₀
  else acc₀

/-- The merged candidate pool after all four steps, filtered to questions
the user has already answered; `none` models the `Question not found`
throw. -/
def candidatePool (env : EmbedEnv) (questionId answer : String)
    (previousAnswers : List PrevAnswer) : Option (List Candidate) :=
  match env.metadata.find? (fun q => q.id = questionId) with
  | none => none
  | some currentQuestion =>
    let s1 := explicitStep env currentQuestion
    let s2 := tagStep env questionId currentQuestion s1
    let s3 := vectorStep env questionId s2
    let s4 := answerSimStep env answer previousAnswers s3
    some (s4.filter (fun sq =>
      previousAnswers.any (fun pa => pa.questionId = sq.question.id)))

/-- Stable insertion into a list sorted by descending similarity. -/
def insertDescBySim (x : Candidate) : List Candidate → List Candidate
  | [] => [x]
  | y :: ys => if x.similarity < y.similarity then y :: insertDescBySim x ys
               else x :: y :: ys

/-- Stable sort by descending similarity, modelling the JavaScript
`sort((a, b) => b.similarity - a.similarity)` (stable in the runtime; a
stable sort's output is unique, and stable insertion sort realizes it). -/
def sortDescBySim : List Candidate → List Candidate
  | [] => []
  | x :: xs => insertDescBySim x (sortDescBySim xs)

/-- `findPotentialContradictions`: pool, stable descending sort, cap at the
top 5, and attachment of each question's previous answer. -/
def findPotentialContradictions (env : EmbedEnv) (questionId answer : String)
    (previousAnswers : List PrevAnswer) : Option (List PotentialContradiction) :=
  (candidatePool env questionId answer previousAnswers).map (fun pool =>
    ((sortDescBySim pool).take 5).map (fun sq =>
      { question := sq.question, similarity := sq.similarity,
        previousAnswer :=
          (((previousAnswers.find? (fun pa => pa.questionId = sq.question.id)).map
            (fun pa => pa.answer)).getD "") }))

/-! ### Lemmas about the candidate pipeline -/

theorem mem_foldl_of_mem {α β : Type} (f : List α → β → List α)
    (hf : ∀ acc x c, c ∈ acc → c ∈ f acc x) (l : List β) (acc : List α) (c : α)
    (hc : c ∈ acc) : c ∈ l.foldl f acc := by
  induction l generalizing acc with
  | nil => exact hc
  | cons x t ih => exact ih _ (hf acc x c hc)

theorem explicitStep_body_mono (env : EmbedEnv) :
    ∀ (acc : List Candidate) (relatedId : String) (c : Candidate), c ∈ acc →
      c ∈ (match env.metadata.find? (fun q => q.id = relatedId) with
           | some rq => acc ++ [(⟨rq, 100⟩ : Candidate)]
           | none => acc) := by
  intro acc relatedId c hc
  split
  · exact List.mem_append_left _ hc
  · exact hc

theorem mem_explicitStep_aux {env : EmbedEnv} {rq : Question} {rid : String}
    (hrq : env.metadata.find? (fun q => q.id = rid) = some rq) :
    ∀ (ids : List String) (acc : List Candidate), rid ∈ ids →
      (⟨rq, 100⟩ : Candidate) ∈ ids.foldl (fun acc relatedId =>
        match env.metadata.find? (fun q => q.id = relatedId) with
        | some rq => acc ++ [⟨rq, 100⟩]
        | none => acc) acc := by
  intro ids
  induction ids with
  | nil => intro acc h; cases h
  | cons a t ih =>
    intro acc h
    rcases List.mem_cons.mp h with rfl | hmem
    · simp only [List.foldl_cons, hrq]
      exact mem_foldl_of_mem _ (explicitStep_body_mono env) t _ _
        (List.mem_append_right _ (List.mem_singleton.mpr rfl))
    · exact ih _ hmem

theorem mem_explicitStep {env : EmbedEnv} {cq rq : Question} {rid : String}
    (hrid : rid ∈ cq.relatedQuestionIds.getD [])
    (hrq : env.metadata.find? (fun q => q.id = rid) = some rq) :
    (⟨rq, 100⟩ : Candidate) ∈ explicitStep env cq :=
  mem_explicitStep_aux hrq _ [] hrid

theorem mem_tagStep_of_mem {env : EmbedEnv} {questionId : String}
    {cq : Question} {acc₀ : List Candidate} {c : Candidate} (hc : c ∈ acc₀) :
    c ∈ tagStep env questionId cq acc₀ := by
  apply mem_foldl_of_mem _ _ _ _ _ hc
  intro acc q d hd
  dsimp only
  split
  · exact hd
  · split
    · exact List.mem_append_left _ hd
    · exact hd

theorem mem_vectorStep_of_mem {env : EmbedEnv} {questionId : String}
    {acc₀ : List Candidate} {c : Candidate} (hc : c ∈ acc₀) :
    c ∈ vectorStep env questionId acc₀ := by
  unfold vectorStep
  split
  · apply mem_foldl_of_mem _ _ _ _ _ hc
    intro acc idx d hd
    dsimp only
    split
    · split
      · exact hd
      · exact List.mem_append_left _ hd
    · exact hd
  · exact hc

theorem mem_answerSimStep_of_mem {env : EmbedEnv} {answer : String}
    {previousAnswers : List PrevAnswer} {acc₀ : List Candidate} {c : Candidate}
    (hc : c ∈ acc₀) : c ∈ answerSimStep env answer previousAnswers acc₀ := by
  unfold answerSimStep
  split
  · apply mem_foldl_of_mem _ _ _ _ _ hc
    intro acc pa d hd
    dsimp only
    split
    · exact hd
    · split
      · exact hd
      · split
        · exact List.mem_append_left _ hd
        · exact hd
  · exact hc

theorem insertDescBySim_perm (x : Candidate) (l : List Candidate) :
    List.Perm (insertDescBySim x l) (x :: l) := by
  induction l with
  | nil => exact List.Perm.refl _
  | cons y ys ih =>
    unfold insertDescBySim
    split
    · exact List.Perm.trans (List.Perm.cons y ih) (List.Perm.swap x y ys)
    · exact List.Perm.refl _

theorem sortDescBySim_perm (l : List Candidate) :
    List.Perm (sortDescBySim l) l := by
  induction l with
  | nil => exact List.Perm.refl _
  | cons x xs ih =>
    exact List.Perm.trans (insertDescBySim_perm x _) (List.Perm.cons x ih)

theorem tagStep_body_mono (env : EmbedEnv) (questionId : String) (cq : Question) :
    ∀ (acc : List Candidate) (q : Question) (c : Candidate), c ∈ acc →
      c ∈ (if q.id = questionId ∨ acc.any (fun sq => sq.question.id = q.id) then acc
           else if 2 ≤ overlapCount cq q then
             acc ++ [(⟨q, 80 + 5 * (overlapCount cq q : ℤ)⟩ : Candidate)]
           else acc) := by
  intro acc q c hc
  split
  · exact hc
  · split
    · exact List.mem_append_left _ hc
    · exact hc

theorem tagStep_mem_inv_aux (env : EmbedEnv) (questionId : String) (cq : Question) :
    ∀ (l : List Question) (acc : List Candidate) (c : Candidate),
      c ∈ l.foldl (fun acc q =>
        if q.id = questionId ∨ acc.any (fun sq => sq.question.id = q.id) then acc
        else if 2 ≤ overlapCount cq q then
          acc ++ [⟨q, 80 + 5 * (overlapCount cq q : ℤ)⟩]
        else acc) acc →
      c ∈ acc ∨ ∃ x ∈ l, c = ⟨x, 80 + 5 * (overlapCount cq x : ℤ)⟩ ∧
        x.id ≠ questionId ∧ 2 ≤ overlapCount cq x := by
  intro l
  induction l with
  | nil => intro acc c hc; exact Or.inl hc
  | cons a t ih =>
    intro acc c hc
    simp only [List.foldl_cons] at hc
    rcases ih _ c hc with hacc | ⟨x, hx, hxe⟩
    · by_cases hguard : a.id = questionId ∨ acc.any (fun sq => sq.question.id = a.id)
      · rw [if_pos hguard] at hacc
        exact Or.inl hacc
      · rw [if_neg hguard] at hacc
        by_cases hov : 2 ≤ overlapCount cq a
        · rw [if_pos hov] at hacc
          rcases List.mem_append.mp hacc with h | h
          · exact Or.inl h
          · refine Or.inr ⟨a, List.mem_cons_self a t, List.mem_singleton.mp h, ?_, hov⟩
            intro hid
            exact hguard (Or.inl hid)
        · rw [if_neg hov] at hacc
          exact Or.inl hacc
    · exact Or.inr ⟨x, List.mem_cons_of_mem a hx, hxe⟩

theorem mem_tagStep_aux (env : EmbedEnv) (questionId : String) (cq q : Question)
    (hne : ¬ q.id = questionId) (hov : 2 ≤ overlapCount cq q) :
    ∀ (l : List Question) (acc : List Candidate), q ∈ l →
      (l.map (fun x => x.id)).Nodup →
      acc.any (fun sq => sq.question.id = q.id) = false →
      (⟨q, 80 + 5 * (overlapCount cq q : ℤ)⟩ : Candidate) ∈ l.foldl (fun acc q =>
        if q.id = questionId ∨ acc.any (fun sq => sq.question.id = q.id) then acc
        else if 2 ≤ overlapCount cq q then
          acc ++ [⟨q, 80 + 5 * (overlapCount cq q : ℤ)⟩]
        else acc) acc := by
  intro l
  induction l with
  | nil => intro acc h; cases h
  | cons a t ih =>
    intro acc hql hnodup hacc
    simp only [List.foldl_cons]
    rcases List.mem_cons.mp hql with rfl | hqt
    · rw [if_neg (by
        intro hor
        rcases hor with h | h
        · exact hne h
        · rw [hacc] at h; cases h), if_pos hov]
      exact mem_foldl_of_mem _ (tagStep_body_mono env questionId cq) t _ _
        (List.mem_append_right _ (List.mem_singleton.mpr rfl))
    · have hne2 : a.id ≠ q.id := by
        intro hid
        have : q.id ∈ t.map (fun x => x.id) := List.mem_map_of_mem _ hqt
        rw [← hid] at this
        exact (List.nodup_cons.mp hnodup).1 this
      apply ih _ hqt (List.nodup_cons.mp hnodup).2
      by_cases hguard : a.id = questionId ∨ acc.any (fun sq => sq.question.id = a.id)
      · rw [if_pos hguard]; exact hacc
      · rw [if_neg hguard]
        by_cases hov2 : 2 ≤ overlapCount cq a
        · rw [if_pos hov2]
          rw [List.any_append, hacc]
          simp [hne2]
        · rw [if_neg hov2]; exact hacc

/-! ## C5: the tag-overlap rule -/

/-- **C5 counterexample.** The claim that only the top 3 tag-overlap pairs
are kept for judging fails in `lib/rag/embedding.ts`: there is no top-3 tag
cap (only the overall top-5 cap), so four prior questions that each share 2
tags with the current question all reach the judged output, each with
weight 0.8 + 0.05·2 = 0.9 (90 in hundredths). -/
theorem C5_counterexample :
    (findPotentialContradictions
        ⟨[⟨"q0", "t0", 1, ["u", "v"], none⟩, ⟨"q1", "t1", 1, ["u", "v"], none⟩,
          ⟨"q2", "t2", 1, ["u", "v"], none⟩, ⟨"q3", "t3", 1, ["u", "v"], none⟩,
          ⟨"q4", "t4", 1, ["u", "v"], none⟩], [], fun _ => 0⟩
        "q0" "short"
        [⟨"q1", "a1"⟩, ⟨"q2", "a2"⟩, ⟨"q3", "a3"⟩, ⟨"q4", "a4"⟩]).map
      (List.map (fun pc => (pc.question.id, pc.similarity)))
      = some [("q1", 90), ("q2", 90), ("q3", 90), ("q4", 90)] := by
  decide

/-- **C5 (amended).** In `lib/rag/embedding.ts` the tag-overlap rule retains
a scanned prior question iff it is not the current question, is not already
included, and shares at least 2 tags (counting tag-list multiplicity) with
the current question, assigning weight 0.8 + 0.05·overlapCount (in
hundredths: 80 + 5·overlap); there is no top-3 tag cap — only the overall
top-5 cap applies afterwards (see the counterexample): (i) everything the
tag step adds beyond its input is a metadata question with overlap ≥ 2, a
non-current id, and the stated weight; (ii) conversely, any metadata
question with a fresh id and overlap ≥ 2 is added with the stated weight
(for metadata with duplicate-free ids). -/
theorem C5_tag_overlap_rule (env : EmbedEnv) (questionId : String)
    (cq : Question) (acc₀ : List Candidate) :
    (∀ c ∈ tagStep env questionId cq acc₀, c ∈ acc₀ ∨
      ∃ x ∈ env.metadata, c = ⟨x, 80 + 5 * (overlapCount cq x : ℤ)⟩ ∧
        x.id ≠ questionId ∧ 2 ≤ overlapCount cq x) ∧
    (∀ q ∈ env.metadata, (env.metadata.map (fun x => x.id)).Nodup →
      ¬ q.id = questionId →
      acc₀.any (fun sq => sq.question.id = q.id) = false →
      2 ≤ overlapCount cq q →
      (⟨q, 80 + 5 * (overlapCount cq q : ℤ)⟩ : Candidate) ∈ tagStep env questionId cq acc₀) := by
  constructor
  · intro c hc
    exact tagStep_mem_inv_aux env questionId cq env.metadata acc₀ c hc
  · intro q hq hnodup hne hacc hov
    exact mem_tagStep_aux env questionId cq q hne hov env.metadata acc₀ hq hnodup hacc

/-- **C5 witness.** The inclusion direction at a concrete two-question
metadata: the prior question sharing both tags is retained with weight
80 + 5·2 = 90 hundredths (0.9). -/
theorem C5_tag_overlap_rule_witness :
    (⟨⟨"q1", "t1", 1, ["u", "v"], none⟩,
        80 + 5 * ((overlapCount ⟨"q0", "t0", 1, ["u", "v"], none⟩
          ⟨"q1", "t1", 1, ["u", "v"], none⟩ : ℕ) : ℤ)⟩ : Candidate) ∈
      tagStep ⟨[⟨"q0", "t0", 1, ["u", "v"], none⟩, ⟨"q1", "t1", 1, ["u", "v"], none⟩],
          [], fun _ => 0⟩
        "q0" ⟨"q0", "t0", 1, ["u", "v"], none⟩ [] :=
  (C5_tag_overlap_rule ⟨[⟨"q0", "t0", 1, ["u", "v"], none⟩,
      ⟨"q1", "t1", 1, ["u", "v"], none⟩], [], fun _ => 0⟩
    "q0" ⟨"q0", "t0", 1, ["u", "v"], none⟩ []).2
    ⟨"q1", "t1", 1, ["u", "v"], none⟩ (by decide) (by decide) (by decide) rfl (by decide)

/-! ## C4: explicit links in candidate generation -/

/-- **C4 counterexample.** The claim that an answered explicit-link pair is
never removed by the top-5 cap fails: the explicit pair enters the pool
with weight 1.0 (100), but five tag-overlap pairs with 5 shared tags get
weight 0.8 + 0.05·5 = 1.05 (105), outrank it in the descending sort, and
the `slice(0, 5)` cap drops the explicit pair from the judged output. -/
theorem C4_counterexample :
    (candidatePool
        ⟨[⟨"q0", "t0", 1, ["u", "v", "w", "x", "y"], some ["qr"]⟩,
          ⟨"qr", "tr", 1, [], none⟩,
          ⟨"q1", "t1", 1, ["u", "v", "w", "x", "y"], none⟩,
          ⟨"q2", "t2", 1, ["u", "v", "w", "x", "y"], none⟩,
          ⟨"q3", "t3", 1, ["u", "v", "w", "x", "y"], none⟩,
          ⟨"q4", "t4", 1, ["u", "v", "w", "x", "y"], none⟩,
          ⟨"q5", "t5", 1, ["u", "v", "w", "x", "y"], none⟩], [], fun _ => 0⟩
        "q0" "short"
        [⟨"qr", "ar"⟩, ⟨"q1", "a1"⟩, ⟨"q2", "a2"⟩, ⟨"q3", "a3"⟩,
         ⟨"q4", "a4"⟩, ⟨"q5", "a5"⟩]).map
      (List.map (fun sq => (sq.question.id, sq.similarity)))
      = some [("qr", 100), ("q1", 105), ("q2", 105), ("q3", 105), ("q4", 105), ("q5", 105)] ∧
    (findPotentialContradictions
        ⟨[⟨"q0", "t0", 1, ["u", "v", "w", "x", "y"], some ["qr"]⟩,
          ⟨"qr", "tr", 1, [], none⟩,
          ⟨"q1", "t1", 1, ["u", "v", "w", "x", "y"], none⟩,
          ⟨"q2", "t2", 1, ["u", "v", "w", "x", "y"], none⟩,
          ⟨"q3", "t3", 1, ["u", "v", "w", "x", "y"], none⟩,
          ⟨"q4", "t4", 1, ["u", "v", "w", "x", "y"], none⟩,
          ⟨"q5", "t5", 1, ["u", "v", "w", "x", "y"], none⟩], [], fun _ => 0⟩
        "q0" "short"
        [⟨"qr", "ar"⟩, ⟨"q1", "a1"⟩, ⟨"q2", "a2"⟩, ⟨"q3", "a3"⟩,
         ⟨"q4", "a4"⟩, ⟨"q5", "a5"⟩]).map
      (List.map (fun pc => pc.question.id))
      = some ["q1", "q2", "q3", "q4", "q5"] := by
  constructor
  · decide
  · decide

/-- **C4 (amended).** Every previously answered pair whose question id
appears in the current question's `relatedQuestionIds` (and whose question
exists in the metadata) is included in the merged candidate pool with
weight 1.0 (100 in hundredths), regardless of tag or embedding signals; it
reaches the judged output whenever the pool holds at most 5 candidates, but
the overall top-5 cap can drop it when at least five higher-weighted
candidates exist — tag-overlap pairs with 5 or more shared tags weigh
0.8 + 0.05·overlap ≥ 1.05 > 1.0 and there is no protection rule (see the
counterexample); no top-3 tag cap exists in this code path. -/
theorem C4_explicit_link_in_pool (env : EmbedEnv) (questionId answer : String)
    (previousAnswers : List PrevAnswer) (cq rq : Question) (rid : String)
    (hcq : env.metadata.find? (fun q => q.id = questionId) = some cq)
    (hrid : rid ∈ cq.relatedQuestionIds.getD [])
    (hrq : env.metadata.find? (fun q => q.id = rid) = some rq)
    (hans : previousAnswers.any (fun pa => pa.questionId = rq.id) = true) :
    ∃ pool, candidatePool env questionId answer previousAnswers = some pool ∧
      (⟨rq, 100⟩ : Candidate) ∈ pool ∧
      (pool.length ≤ 5 →
        ∃ pc ∈ (findPotentialContradictions env questionId answer previousAnswers).getD [],
          pc.question = rq ∧ pc.similarity = 100) := by
  have hpool : candidatePool env questionId answer previousAnswers
      = some ((answerSimStep env answer previousAnswers
          (vectorStep env questionId (tagStep env questionId cq
            (explicitStep env cq)))).filter (fun sq =>
        previousAnswers.any (fun pa => pa.questionId = sq.question.id))) := by
    unfold candidatePool
    rw [hcq]
  refine ⟨_, hpool, ?_, ?_⟩
  · apply List.mem_filter.mpr
    refine ⟨?_, hans⟩
    exact mem_answerSimStep_of_mem (mem_vectorStep_of_mem (mem_tagStep_of_mem
      (mem_explicitStep hrid hrq)))
  · intro hlen
    have hmem : (⟨rq, 100⟩ : Candidate) ∈ (answerSimStep env answer previousAnswers
        (vectorStep env questionId (tagStep env questionId cq
          (explicitStep env cq)))).filter (fun sq =>
        previousAnswers.any (fun pa => pa.questionId = sq.question.id)) := by
      apply List.mem_filter.mpr
      refine ⟨?_, hans⟩
      exact mem_answerSimStep_of_mem (mem_vectorStep_of_mem (mem_tagStep_of_mem
        (mem_explicitStep hrid hrq)))
    set pool := (answerSimStep env answer previousAnswers
        (vectorStep env questionId (tagStep env questionId cq
          (explicitStep env cq)))).filter (fun sq =>
        previousAnswers.any (fun pa => pa.questionId = sq.question.id)) with hpooldef
    have hout : findPotentialContradictions env questionId answer previousAnswers
        = some (((sortDescBySim pool).take 5).map (fun sq =>
          { question := sq.question, similarity := sq.similarity,
            previousAnswer :=
              (((previousAnswers.find? (fun pa => pa.questionId = sq.question.id)).map
                (fun pa => pa.answer)).getD "") })) := by
      unfold findPotentialContradictions
      rw [hpool]
      rfl
    rw [hout]
    have hsorted : (⟨rq, 100⟩ : Candidate) ∈ sortDescBySim pool :=
      ((sortDescBySim_perm pool).mem_iff).mpr hmem
    have hslen : (sortDescBySim pool).length ≤ 5 := by
      rw [(sortDescBySim_perm pool).length_eq]
      exact hlen
    rw [List.take_of_length_le hslen]
    refine ⟨_, List.mem_map_of_mem _ hsorted, rfl, rfl⟩

/-- **C4 witness.** The amended property at a two-question metadata with a
single explicit link and one answered pair: the pool is the singleton
explicit pair and it reaches the output with weight 100. -/
theorem C4_explicit_link_in_pool_witness :
    ∃ pool, candidatePool
        ⟨[⟨"q0", "t0", 1, [], some ["qr"]⟩, ⟨"qr", "tr", 1, [], none⟩], [], fun _ => 0⟩
        "q0" "s" [⟨"qr", "ar"⟩] = some pool ∧
      (⟨⟨"qr", "tr", 1, [], none⟩, 100⟩ : Candidate) ∈ pool ∧
      (pool.length ≤ 5 →
        ∃ pc ∈ (findPotentialContradictions
            ⟨[⟨"q0", "t0", 1, [], some ["qr"]⟩, ⟨"qr", "tr", 1, [], none⟩], [], fun _ => 0⟩
            "q0" "s" [⟨"qr", "ar"⟩]).getD [],
          pc.question = ⟨"qr", "tr", 1, [], none⟩ ∧ pc.similarity = 100) :=
  C4_explicit_link_in_pool
    ⟨[⟨"q0", "t0", 1, [], some ["qr"]⟩, ⟨"qr", "tr", 1, [], none⟩], [], fun _ => 0⟩
    "q0" "s" [⟨"qr", "ar"⟩] ⟨"q0", "t0", 1, [], some ["qr"]⟩ ⟨"qr", "tr", 1, [], none⟩
    "qr" (by decide) (by decide) (by decide) (by decide)

/-! ## Contradiction Judge (`detectContradictionFromAnalysis`, enhanced
variant, `lib/core/contradictions.ts` lines 220–282)

The conclusion-extraction regexes are modelled by specialized matchers with
JavaScript semantics (leftmost start position, greedy `:?` and `\s*`, lazy
`(.*?)`, `.` excluding line terminators, `$` at end of input only).
Weights of the lexical scorer are stored in hundredths of the source's
floating-point constants (30 = 0.30 etc.), with threshold 10 = 0.1. -/

/-- JavaScript whitespace (`\s`) restricted to the ASCII characters the
engine handles. -/
def isWs (c : Char) : Bool := c = ' ' || c = '\t' || c = '\n' || c = '\r'

/-- JavaScript line terminators; a regex `.` matches anything else. -/
def isLineTerm (c : Char) : Bool := c = '\n' || c = '\r'

/-- Greedy `\s*`: the remainder after the maximal whitespace prefix, with
the count of consumed characters. -/
def dropWs : List Char → List Char × Nat
  | [] => ([], 0)
  | c :: cs =>
    if isWs c then
      let r := dropWs cs
      (r.1, r.2 + 1)
    else (c :: cs, 0)

/-- The lazy `(.*?)(?:\.|$)` tail: the number of characters up to and
including the first period reachable without crossing a line terminator, or
to the end of input when no line terminator remains; `none` when a line
terminator blocks every period (the match fails at this start position —
backtracking the greedy whitespace cannot reach any earlier period, since
the skipped characters are whitespace, not periods). -/
def scanDot : List Char → Option Nat
  | [] => some 0
  | c :: cs =>
    if c = '.' then some 1
    else if isLineTerm c then none
    else (scanDot cs).map (· + 1)

/-- The `:?\s*(.*?)(?:\.|$)` continuation after a matched `conclusion`
literal: the optional colon (greedy, and strictly more permissive than
skipping it, since `\s*` after the colon may cross line terminators),
maximal whitespace, then the lazy scan; returns the consumed length. -/
def conclTail (rest : List Char) : Option Nat :=
  let afterColon := if rest.head? = some ':' then (rest.drop 1, 1) else (rest, 0)
  let ws := dropWs afterColon.1
  (scanDot ws.1).map (fun m => afterColon.2 + ws.2 + m)

/-- The lowercased first match of `/conclusion:?\s*(.*?)(?:\.|$)/i`:
start positions are tried left to right, as the JavaScript engine does. -/
def conclRegexMatch : List Char → Option (List Char)
  | [] => none
  | c :: rest =>
    if lowerStr ((c :: rest).take 10) = "conclusion".toList then
      match conclTail ((c :: rest).drop 10) with
      | some m => some (lowerStr ((c :: rest).take (10 + m)))
      | none => conclRegexMatch rest
    else conclRegexMatch rest

/-- The apostrophe character, for the `isn't` alternatives. -/
def apos : Char := Char.ofNat 39

/-- The literal `there is a contradiction`. -/
def thereIs : List Char := "there is a contradiction".toList

/-- The literal `there is not a contradiction`. -/
def thereIsNot : List Char := "there is not a contradiction".toList

/-- The literal spelled `there isn` + apostrophe + `t a contradiction`. -/
def thereIsnt : List Char := "there isn".toList ++ [apos] ++ "t a contradiction".toList

/-- The lowercased first match of `/there (is|is not|isn't) a
contradiction/i`: at each start position the alternatives are tried in
source order. -/
def thereRegexMatch : List Char → Option (List Char)
  | [] => none
  | c :: rest =>
    let ls := lowerStr ((c :: rest).take 28)
    if thereIs.isPrefixOf ls then some thereIs
    else if thereIsNot.isPrefixOf ls then some thereIsNot
    else if thereIsnt.isPrefixOf ls then some thereIsnt
    else thereRegexMatch rest

/-- Test of `/conclusion:\s*w/i` on a lowercased string: some occurrence of
`conclusion:` followed by a whitespace run and the word `w` (backtracking
the greedy `\s*` cannot help, as `w` does not start with whitespace). -/
def conclColonWord (w : List Char) : List Char → Bool
  | [] => false
  | c :: rest =>
    (if "conclusion:".toList.isPrefixOf (c :: rest) then
      w.isPrefixOf (dropWs ((c :: rest).drop 11)).1
    else false) || conclColonWord w rest

/-- The explicit positive test on the matched conclusion:
`/there is a contradiction|conclusion:\s*yes/i`. -/
def conclPositive (c : List Char) : Bool :=
  containsSub thereIs c || conclColonWord "yes".toList c

/-- The explicit negative test on the matched conclusion:
`/there (is not|isn't) a contradiction|no contradiction|conclusion:\s*no/i`. -/
def conclNegative (c : List Char) : Bool :=
  containsSub thereIsNot c || containsSub thereIsnt c ||
  containsSub "no contradiction".toList c || conclColonWord "no".toList c

/-- The positive rule table of the weighted fallback scorer; each entry
lists the alternatives of one source regex pattern, weight in hundredths. -/
def contradictionIndicators : List (List String × ℤ) :=
  [(["contradicts", "contradiction"], 30),
   (["inconsistent", "inconsistency"], 25),
   (["conflicts with", "conflict between"], 20),
   (["cannot be reconciled"], 30),
   (["mutually exclusive", "incompatible"], 30),
   (["tension between", "at odds with"], 15),
   (["opposes", "opposing"], 20)]

/-- The negative rule table of the weighted fallback scorer. -/
def negationIndicators : List (List String × ℤ) :=
  [(["no contradiction"], -40),
   (["not contradictory"], -30),
   (["consistent", "consistency"], -25),
   (["compatible"], -20),
   (["can be reconciled"], -30),
   (["align", "aligns with"], -15),
   (["complement", "complementary"], -20)]

/-- Whether any alternative of a pattern occurs in the (lowercased) text. -/
def anyAlt (alts : List String) (t : List Char) : Bool :=
  alts.any (fun a => containsSub a.toList t)

/-- The weighted fallback score: both pattern loops applied in source
order, each matching pattern contributing its weight once (hundredths). -/
def fallbackScore (t : List Char) : ℤ :=
  negationIndicators.foldl (fun s pw => if anyAlt pw.1 t then s + pw.2 else s)
    (contradictionIndicators.foldl (fun s pw => if anyAlt pw.1 t then s + pw.2 else s) 0)

/-- `detectContradictionFromAnalysis` (enhanced variant): extract an
explicit conclusion (`match(regex1) || match(regex2)`); trust an explicit
positive or negative verdict in it; otherwise fall back to the weighted
scorer over the lowercased analysis with threshold `score > 0.1`
(10 hundredths). -/
def detectContradictionFromAnalysis (analysis : String) : Bool :=
  let s := analysis.toList
  let concl? := match conclRegexMatch s with
    | some c => some c
    | none => thereRegexMatch s
  match concl? with
  | some conclusion =>
    if conclPositive conclusion then true
    else if conclNegative conclusion then false
    else fallbackScore (lowerStr s) > 10
  | none => fallbackScore (lowerStr s) > 10

/-- Modelled from the claim's phrase list (C6 as stated): only the phrases
the claim enumerates, with its weights (hundredths), summed with each
phrase contributing at most once. -/
def claimPhraseScore (t : List Char) : ℤ :=
  ([(["contradicts"], (30 : ℤ)), (["inconsistent"], 25), (["conflicts with"], 20),
    (["cannot be reconciled"], 30), (["mutually exclusive", "incompatible"], 30),
    (["tension between"], 15), (["opposes"], 20),
    (["no contradiction"], -40), (["consistent"], -25), (["compatible"], -20),
    (["can be reconciled"], -30), (["aligns with"], -15),
    (["complementary"], -20)].map
    (fun pw => if anyAlt pw.1 t then pw.2 else 0)).sum

/-- The fallback scorer as the amended claim states it: one unified rule
table, each pattern (with its alternative spellings) contributing its
weight at most once, summed. -/
def specFallbackScore (t : List Char) : ℤ :=
  ((contradictionIndicators ++ negationIndicators).map
    (fun pw => if anyAlt pw.1 t then pw.2 else 0)).sum

/-- The judge as the amended claim states it: an explicit conclusion is
trusted directly (positive → contradiction, negative → none); otherwise the
verdict is `contradiction` exactly when the unified weighted sum exceeds
0.1. -/
def specDetectContradiction (analysis : String) : Bool :=
  let s := analysis.toList
  let concl? := match conclRegexMatch s with
    | some c => some c
    | none => thereRegexMatch s
  match concl? with
  | some conclusion =>
    if conclPositive conclusion then true
    else if conclNegative conclusion then false
    else specFallbackScore (lowerStr s) > 10
  | none => specFallbackScore (lowerStr s) > 10

theorem foldl_weight_eq (l : List (List String × ℤ)) (t : List Char) (init : ℤ) :
    l.foldl (fun s pw => if anyAlt pw.1 t then s + pw.2 else s) init
      = init + (l.map (fun pw => if anyAlt pw.1 t then pw.2 else 0)).sum := by
  induction l generalizing init with
  | nil => simp
  | cons pw rest ih =>
    simp only [List.foldl_cons, List.map_cons, List.sum_cons, ih]
    by_cases h : anyAlt pw.1 t
    · simp [h]; ring
    · simp [h]

theorem fallbackScore_eq_spec (t : List Char) :
    fallbackScore t = specFallbackScore t := by
  unfold fallbackScore specFallbackScore
  rw [foldl_weight_eq, foldl_weight_eq, List.map_append, List.sum_append]
  ring

/-! ## C6: the Contradiction Judge's lexical fallback -/

/-- **C6 counterexample.** The claim's phrase table is incomplete: the code
also weighs `not contradictory` at −0.30 (and alternative spellings of the
listed phrases). On an analysis with no conclusion line containing
`contradicts` (+0.30) and `not contradictory` (−0.30), the code's score is
0.00 and it reports no contradiction, while the claim's listed phrases sum
to +0.30 > 0.1 and assert a contradiction verdict. -/
theorem C6_counterexample :
    detectContradictionFromAnalysis
        "these answers rest on contradicts-adjacent wording but are not contradictory" = false ∧
    conclRegexMatch
        "these answers rest on contradicts-adjacent wording but are not contradictory".toList
      = none ∧
    thereRegexMatch
        "these answers rest on contradicts-adjacent wording but are not contradictory".toList
      = none ∧
    claimPhraseScore (lowerStr
        "these answers rest on contradicts-adjacent wording but are not contradictory".toList)
      > 10 := by
  refine ⟨?_, ?_, ?_, ?_⟩ <;> decide

/-- **C6 (amended).** The judge trusts an explicit conclusion directly
(YES-style match → contradiction, NO-style match → none; an inconclusive
conclusion falls through); otherwise the verdict is `contradiction` exactly
when the weighted sum over the code's full rule table — the claim's phrases
plus `not contradictory` −0.30 and the alternative spellings
(`contradiction`, `inconsistency`, `conflict between`, `at odds with`,
`opposing`, `consistency`, bare `align`, bare `complement`) — exceeds 0.1,
each pattern contributing at most once. -/
theorem C6_judge_equals_spec (analysis : String) :
    detectContradictionFromAnalysis analysis = specDetectContradiction analysis := by
  simp only [detectContradictionFromAnalysis, specDetectContradiction,
    fallbackScore_eq_spec]

/-! ## Answer submission (`submitAnswer`, `lib/rag/index.ts` lines
392–481) -/

/-- The inline verdict check of `submitAnswer` (line 462): the analysis
mentions `contradiction` but not `no contradiction`. -/
def submitVerdict (analysis : String) : Bool :=
  containsSub "contradiction".toList (lowerStr analysis.toList) &&
  !containsSub "no contradiction".toList (lowerStr analysis.toList)

/-- Whether a contradiction links both given question ids (the existence
check `c.questionIds.includes(questionId) && c.questionIds.includes(...)`). -/
def linksPair (c : Contradiction) (a b : String) : Bool :=
  c.questionIds.contains a && c.questionIds.contains b

/-- State threaded through the contradiction loop of `submitAnswer`: the
session (updated by `addContradiction`), the collected result list, and the
count of fresh ids drawn so far. -/
structure SubmitState where
  session : UserSession
  found : List Contradiction
  fresh : ℕ
  deriving Repr

/-- One iteration of the contradiction loop of `submitAnswer`: reuse an
already-stored contradiction linking the same unordered question-id pair;
otherwise judge the pair (the judge verdict is a function of the pair
because the Ollama client caches per prompt) and persist a new
contradiction on a positive verdict, drawing `idSupply st.fresh` for
`uuidv4()`. -/
def submitStep (questionId answer : String) (judge : String → String → String)
    (idSupply : ℕ → String) (st : SubmitState)
    (potential : PotentialContradiction) : SubmitState :=
  match st.session.contradictions.find? (fun c =>
      linksPair c questionId potential.question.id) with
  | some existing => { st with found := st.found ++ [existing] }
  | none =>
    let analysis := judge potential.question.text potential.previousAnswer
    if submitVerdict analysis then
      let c : Contradiction := ⟨idSupply st.fresh, [questionId, potential.question.id],
        [answer, potential.previousAnswer], analysis, false, none⟩
      { session := { st.session with
          contradictions := st.session.contradictions ++ [c] },
        found := st.found ++ [c], fresh := st.fresh + 1 }
    else st

/-- The `previousAnswers` computed by `submitAnswer` after the new answer
was appended: every stored answer whose question id differs from the
current one. -/
def previousAnswersOf (session₀ : UserSession) (questionId answer now : String) :
    List PrevAnswer :=
  (((session₀.answers ++ [(⟨questionId, answer, now⟩ : UserAnswer)]).filter
    (fun a => a.questionId != questionId)).map
    (fun a => (⟨a.questionId, a.answer⟩ : PrevAnswer)))

/-- `submitAnswer`: look the question up, append the answer (with the
current timestamp `now`), generate candidates through the embedding
service, and run the contradiction loop. `none` models a thrown
`Question not found`. -/
def submitAnswer (env : EmbedEnv) (questions : List Question)
    (judge : String → String → String) (idSupply : ℕ → String) (now : String)
    (session₀ : UserSession) (questionId answer : String) :
    Option (UserSession × List Contradiction) :=
  match questions.find? (fun q => q.id = questionId) with
  | none => none
  | some _ =>
    let session₁ := { session₀ with
      answers := session₀.answers ++ [⟨questionId, answer, now⟩] }
    match findPotentialContradictions env questionId answer
        (previousAnswersOf session₀ questionId answer now) with
    | none => none
    | some potentials =>
      let final := potentials.foldl (submitStep questionId answer judge idSupply)
        ⟨session₁, [], 0⟩
      some (final.session, final.found)

/-- At most one stored contradiction links any unordered pair of distinct
question ids. -/
def pairOnce (cs : List Contradiction) : Prop :=
  ∀ a b : String, a ≠ b → (cs.filter (fun c => linksPair c a b)).length ≤ 1

/-! ### Lemmas about the contradiction loop -/

theorem linksPair_comm (c : Contradiction) (a b : String) :
    linksPair c a b = linksPair c b a := by
  unfold linksPair
  exact Bool.and_comm _ _

theorem contains_true_iff_mem {l : List String} {x : String} :
    l.contains x = true ↔ x ∈ l := by
  constructor <;> intro h <;> simpa using h

theorem pairOnce_append_new {cs : List Contradiction} {qid pid : String}
    (hP : pairOnce cs)
    (hnone : cs.find? (fun c => linksPair c qid pid) = none)
    (c : Contradiction) (hc : c.questionIds = [qid, pid]) :
    pairOnce (cs ++ [c]) := by
  intro a b hab
  rw [List.filter_append, List.length_append]
  by_cases hlink : linksPair c a b
  · have haq : a ∈ ([qid, pid] : List String) := by
      have h1 := (Bool.and_eq_true _ _).mp hlink
      have h2 := contains_true_iff_mem.mp h1.1
      rw [hc] at h2
      exact h2
    have hbq : b ∈ ([qid, pid] : List String) := by
      have h1 := (Bool.and_eq_true _ _).mp hlink
      have h2 := contains_true_iff_mem.mp h1.2
      rw [hc] at h2
      exact h2
    have hzero : (cs.filter (fun c => linksPair c a b)).length = 0 := by
      rw [List.length_eq_zero, List.filter_eq_nil_iff]
      intro x hx
      have hnot := List.find?_eq_none.mp hnone x hx
      intro hxab
      apply hnot
      unfold linksPair at hxab ⊢
      have h1 := (Bool.and_eq_true _ _).mp hxab
      have ha' := contains_true_iff_mem.mp h1.1
      have hb' := contains_true_iff_mem.mp h1.2
      rw [Bool.and_eq_true]
      have haq' : a = qid ∨ a = pid := by simpa using haq
      have hbq' : b = qid ∨ b = pid := by simpa using hbq
      rcases haq' with ha1 | ha1 <;> rcases hbq' with hb1 | hb1
      · exact absurd (ha1.trans hb1.symm) hab
      · exact ⟨contains_true_iff_mem.mpr (ha1 ▸ ha'), contains_true_iff_mem.mpr (hb1 ▸ hb')⟩
      · exact ⟨contains_true_iff_mem.mpr (hb1 ▸ hb'), contains_true_iff_mem.mpr (ha1 ▸ ha')⟩
      · exact absurd (ha1.trans hb1.symm) hab
    rw [hzero]
    have hsingle : (List.filter (fun x => linksPair x a b) [c]).length ≤ 1 := by
      by_cases hcc : linksPair c a b <;> simp [List.filter, hcc]
    omega
  · have hznew : (List.filter (fun c => linksPair c a b) [c]).length = 0 := by
      simp [List.filter, hlink]
    rw [hznew]
    have := hP a b hab
    omega

theorem submitStep_pairOnce {questionId answer : String}
    {judge : String → String → String} {idSupply : ℕ → String}
    {st : SubmitState} {potential : PotentialContradiction}
    (hP : pairOnce st.session.contradictions) :
    pairOnce (submitStep questionId answer judge idSupply st potential).session.contradictions := by
  simp only [submitStep]
  split
  · exact hP
  · rename_i hnone
    split
    · exact pairOnce_append_new hP hnone _ rfl
    · exact hP

theorem foldl_submitStep_pairOnce (questionId answer : String)
    (judge : String → String → String) (idSupply : ℕ → String)
    (potentials : List PotentialContradiction) :
    ∀ st : SubmitState, pairOnce st.session.contradictions →
      pairOnce ((potentials.foldl (submitStep questionId answer judge idSupply)
        st).session.contradictions) := by
  induction potentials with
  | nil => intro st h; exact h
  | cons p t ih =>
    intro st h
    exact ih _ (submitStep_pairOnce h)

theorem foldl_submitStep_linked (questionId answer : String)
    (judge : String → String → String) (idSupply : ℕ → String)
    (base : List Contradiction) (potentials : List PotentialContradiction)
    (hlinked : ∀ pc ∈ potentials, ∃ c ∈ base, linksPair c questionId pc.question.id) :
    ∀ st : SubmitState, st.session.contradictions = base →
      (∀ c ∈ st.found, c ∈ base) →
      ((potentials.foldl (submitStep questionId answer judge idSupply)
          st).session.contradictions = base ∧
        ∀ c ∈ (potentials.foldl (submitStep questionId answer judge idSupply)
          st).found, c ∈ base) := by
  induction potentials with
  | nil => intro st h hf; exact ⟨h, hf⟩
  | cons p t ih =>
    intro st h hf
    obtain ⟨c₀, hc₀, hlk⟩ := hlinked p (List.mem_cons_self p t)
    have hfind : st.session.contradictions.find?
        (fun c => linksPair c questionId p.question.id) ≠ none := by
      intro hnone
      have := List.find?_eq_none.mp hnone c₀ (by rw [h]; exact hc₀)
      exact this hlk
    simp only [List.foldl_cons]
    rcases hsome : st.session.contradictions.find?
        (fun c => linksPair c questionId p.question.id) with _ | existing
    · exact absurd hsome hfind
    · have hstep : submitStep questionId answer judge idSupply st p
          = { st with found := st.found ++ [existing] } := by
        unfold submitStep
        rw [hsome]
      rw [hstep]
      apply ih (fun pc hpc => hlinked pc (List.mem_cons_of_mem p hpc))
      · exact h
      · intro c hc
        rcases List.mem_append.mp hc with hc1 | hc2
        · exact hf c hc1
        · have hce : c = existing := List.mem_singleton.mp hc2
          subst hce
          have hmem := List.mem_of_find?_eq_some hsome
          rw [h] at hmem
          exact hmem

/-! ## C7: idempotent contradiction detection -/

/-- **C7.** Per unordered question-id pair at most one Contradiction entity
exists: (i) `submitAnswer` preserves the at-most-one-per-pair invariant —
a new entity is persisted only after the stored-contradiction check fails
for its pair; (ii) when every generated candidate's pair is already linked
by a stored contradiction (as on resubmission of the same answer), the
stored contradiction list is returned-from unchanged and every returned
contradiction is an already-stored one rather than a fresh duplicate. -/
theorem C7_no_duplicate_contradictions (env : EmbedEnv) (questions : List Question)
    (judge : String → String → String) (idSupply : ℕ → String) (now : String)
    (session₀ : UserSession) (questionId answer : String)
    (s' : UserSession) (returned : List Contradiction)
    (hrun : submitAnswer env questions judge idSupply now session₀ questionId answer
      = some (s', returned)) :
    (pairOnce session₀.contradictions → pairOnce s'.contradictions) ∧
    ((∀ pc ∈ (findPotentialContradictions env questionId answer
        (previousAnswersOf session₀ questionId answer now)).getD [],
        ∃ c ∈ session₀.contradictions, linksPair c questionId pc.question.id) →
      s'.contradictions = session₀.contradictions ∧
        ∀ c ∈ returned, c ∈ session₀.contradictions) := by
  unfold submitAnswer at hrun
  rcases hq : questions.find? (fun q => q.id = questionId) with _ | q
  · rw [hq] at hrun; cases hrun
  · rw [hq] at hrun
    rcases hpot : findPotentialContradictions env questionId answer
        (previousAnswersOf session₀ questionId answer now) with _ | potentials
    · rw [hpot] at hrun; cases hrun
    · rw [hpot] at hrun
      simp only [Option.some.injEq, Prod.mk.injEq] at hrun
      obtain ⟨hs', hret⟩ := hrun
      constructor
      · intro hP
        rw [← hs']
        exact foldl_submitStep_pairOnce questionId answer judge idSupply potentials
          ⟨{ session₀ with
              answers := session₀.answers ++ [⟨questionId, answer, now⟩] }, [], 0⟩ hP
      · intro hlinked
        simp only [Option.getD_some] at hlinked
        have := foldl_submitStep_linked questionId answer judge idSupply
          session₀.contradictions potentials hlinked
          ⟨{ session₀ with
              answers := session₀.answers ++ [⟨questionId, answer, now⟩] }, [], 0⟩
          rfl (by intro c hc; cases hc)
        rw [← hs', ← hret]
        exact this

/-- **C7 witness.** The theorem at a one-question knowledge base and an
empty session: submission stores the answer, generates no candidates, and
returns no contradictions. -/
theorem C7_no_duplicate_contradictions_witness :
    (pairOnce (⟨"u", [], [], 1, []⟩ : UserSession).contradictions →
      pairOnce (⟨"u", [⟨"q1", "a", "ts"⟩], [], 1, []⟩ : UserSession).contradictions) ∧
    ((∀ pc ∈ (findPotentialContradictions
        ⟨[⟨"q1", "t", 1, [], none⟩], [], fun _ => 0⟩ "q1" "a"
        (previousAnswersOf ⟨"u", [], [], 1, []⟩ "q1" "a" "ts")).getD [],
        ∃ c ∈ (⟨"u", [], [], 1, []⟩ : UserSession).contradictions,
          linksPair c "q1" pc.question.id) →
      (⟨"u", [⟨"q1", "a", "ts"⟩], [], 1, []⟩ : UserSession).contradictions
          = (⟨"u", [], [], 1, []⟩ : UserSession).contradictions ∧
        ∀ c ∈ ([] : List Contradiction),
          c ∈ (⟨"u", [], [], 1, []⟩ : UserSession).contradictions) :=
  C7_no_duplicate_contradictions
    ⟨[⟨"q1", "t", 1, [], none⟩], [], fun _ => 0⟩ [⟨"q1", "t", 1, [], none⟩]
    (fun _ _ => "") (fun _ => "id") "ts" ⟨"u", [], [], 1, []⟩ "q1" "a"
    ⟨"u", [⟨"q1", "a", "ts"⟩], [], 1, []⟩ [] rfl

/-! ## Stage progression (`evaluateStageProgression`,
`lib/core/analysis.ts` lines 213–320) -/

/-- The questions of the current stage the user has answered. -/
def answeredStageQuestions (questions : List Question) (session : UserSession) :
    List Question :=
  (questions.filter (fun q => q.stage = session.currentStage)).filter
    (fun q => (session.answers.map (fun a => a.questionId)).contains q.id)

/-- `evaluateStageProgression`, returning the `readyToAdvance` flag.
The oracle outcome is a parameter: `Except.error ()` models a thrown
oracle (or stage-data) error — the `catch` block lets the user advance —
and `Except.ok response` the oracle's free-text verdict, which must start
with `yes` (case-insensitively) or advancement is blocked. -/
def evaluateStageProgression (questions : List Question)
    (stages : List KohlbergStage) (session : UserSession)
    (oracle : Except Unit String) : Bool :=
  let answeredStage := answeredStageQuestions questions session
  if answeredStage.length < 3 then false
  else
    let currentStageAnswerIds := answeredStage.map (fun q => q.id)
    let unresolved := session.contradictions.filter (fun c =>
      c.questionIds.any (fun qId => currentStageAnswerIds.contains qId) && !c.resolved)
    if 0 < unresolved.length then false
    else if 1 < session.currentStage then
      match stages.find? (fun s => s.stage = session.currentStage) with
      | some _ =>
        if 0 < (session.answers.filter (fun a =>
            (answeredStage.find? (fun q => q.id = a.questionId)).isSome)).length then
          match oracle with
          | Except.error _ => true
          | Except.ok response => lowerStartsWith "yes" response
        else true
      | none => true
    else true

/-! ## C8: the stage-advancement guard -/

/-- **C8.** Stage advancement reports not-ready whenever fewer than 3
questions of the current stage are answered; it reports not-ready whenever
an unresolved contradiction references a question of the current stage's
answered set; and once both structural checks pass, an oracle failure
(thrown call) does not block advancement — the guard fails open for the
optional understanding check. -/
theorem C8_stage_guard (questions : List Question) (stages : List KohlbergStage)
    (session : UserSession) (oracle : Except Unit String) :
    ((answeredStageQuestions questions session).length < 3 →
      evaluateStageProgression questions stages session oracle = false) ∧
    (∀ c ∈ session.contradictions, c.resolved = false →
      (∃ qid ∈ c.questionIds,
        qid ∈ (answeredStageQuestions questions session).map (fun q => q.id)) →
      evaluateStageProgression questions stages session oracle = false) ∧
    (3 ≤ (answeredStageQuestions questions session).length →
      (∀ c ∈ session.contradictions, c.resolved = false →
        ∀ qid ∈ c.questionIds,
          qid ∉ (answeredStageQuestions questions session).map (fun q => q.id)) →
      evaluateStageProgression questions stages session (Except.error ()) = true) := by
  refine ⟨?_, ?_, ?_⟩
  · intro hlen
    simp only [evaluateStageProgression]
    rw [if_pos hlen]
  · intro c hc hres htouch
    simp only [evaluateStageProgression]
    by_cases hlen : (answeredStageQuestions questions session).length < 3
    · rw [if_pos hlen]
    · rw [if_neg hlen]
      have hcmem : c ∈ session.contradictions.filter (fun c =>
          c.questionIds.any (fun qId =>
            ((answeredStageQuestions questions session).map (fun q => q.id)).contains qId)
          && !c.resolved) := by
        apply List.mem_filter.mpr
        refine ⟨hc, ?_⟩
        rw [Bool.and_eq_true]
        constructor
        · rw [List.any_eq_true]
          obtain ⟨qid, hqid, hqmem⟩ := htouch
          exact ⟨qid, hqid, contains_true_iff_mem.mpr hqmem⟩
        · rw [hres]; rfl
      have hpos : 0 < (session.contradictions.filter (fun c =>
          c.questionIds.any (fun qId =>
            ((answeredStageQuestions questions session).map (fun q => q.id)).contains qId)
          && !c.resolved)).length := List.length_pos.mpr (by
        intro hnil
        rw [hnil] at hcmem
        cases hcmem)
      rw [if_pos hpos]
  · intro hlen hnone
    simp only [evaluateStageProgression]
    rw [if_neg (by omega)]
    have hempty : session.contradictions.filter (fun c =>
        c.questionIds.any (fun qId =>
          ((answeredStageQuestions questions session).map (fun q => q.id)).contains qId)
        && !c.resolved) = [] := by
      rw [List.filter_eq_nil_iff]
      intro c hc
      rw [Bool.and_eq_true]
      intro ⟨hany, hres⟩
      rw [List.any_eq_true] at hany
      obtain ⟨qid, hqid, hqc⟩ := hany
      have hres' : c.resolved = false := by
        cases hr : c.resolved
        · rfl
        · rw [hr] at hres; cases hres
      exact hnone c hc hres' qid hqid (contains_true_iff_mem.mp hqc)
    rw [hempty]
    simp only [List.length_nil, lt_irrefl, if_false]
    split
    · split
      · split
        · rfl
        · rfl
      · rfl
    · rfl

/-- **C8 witness.** The guard at a three-question stage-1 bank, three
answers and one resolved contradiction: with both structural checks
passing and a failing oracle, advancement is allowed. -/
theorem C8_stage_guard_witness :
    ((answeredStageQuestions
        [⟨"q1", "t1", 1, [], none⟩, ⟨"q2", "t2", 1, [], none⟩, ⟨"q3", "t3", 1, [], none⟩]
        ⟨"u", [⟨"q1", "a1", ""⟩, ⟨"q2", "a2", ""⟩, ⟨"q3", "a3", ""⟩],
         [⟨"c1", ["q1", "q2"], ["a1", "a2"], "e", true, none⟩], 1, []⟩).length < 3 →
      evaluateStageProgression
        [⟨"q1", "t1", 1, [], none⟩, ⟨"q2", "t2", 1, [], none⟩, ⟨"q3", "t3", 1, [], none⟩]
        [] ⟨"u", [⟨"q1", "a1", ""⟩, ⟨"q2", "a2", ""⟩, ⟨"q3", "a3", ""⟩],
         [⟨"c1", ["q1", "q2"], ["a1", "a2"], "e", true, none⟩], 1, []⟩
        (Except.error ()) = false) ∧
    (∀ c ∈ (⟨"u", [⟨"q1", "a1", ""⟩, ⟨"q2", "a2", ""⟩, ⟨"q3", "a3", ""⟩],
         [⟨"c1", ["q1", "q2"], ["a1", "a2"], "e", true, none⟩], 1, []⟩ : UserSession).contradictions,
      c.resolved = false →
      (∃ qid ∈ c.questionIds,
        qid ∈ (answeredStageQuestions
          [⟨"q1", "t1", 1, [], none⟩, ⟨"q2", "t2", 1, [], none⟩, ⟨"q3", "t3", 1, [], none⟩]
          ⟨"u", [⟨"q1", "a1", ""⟩, ⟨"q2", "a2", ""⟩, ⟨"q3", "a3", ""⟩],
           [⟨"c1", ["q1", "q2"], ["a1", "a2"], "e", true, none⟩], 1, []⟩).map (fun q => q.id)) →
      evaluateStageProgression
        [⟨"q1", "t1", 1, [], none⟩, ⟨"q2", "t2", 1, [], none⟩, ⟨"q3", "t3", 1, [], none⟩]
        [] ⟨"u", [⟨"q1", "a1", ""⟩, ⟨"q2", "a2", ""⟩, ⟨"q3", "a3", ""⟩],
         [⟨"c1", ["q1", "q2"], ["a1", "a2"], "e", true, none⟩], 1, []⟩
        (Except.error ()) = false) ∧
    (3 ≤ (answeredStageQuestions
        [⟨"q1", "t1", 1, [], none⟩, ⟨"q2", "t2", 1, [], none⟩, ⟨"q3", "t3", 1, [], none⟩]
        ⟨"u", [⟨"q1", "a1", ""⟩, ⟨"q2", "a2", ""⟩, ⟨"q3", "a3", ""⟩],
         [⟨"c1", ["q1", "q2"], ["a1", "a2"], "e", true, none⟩], 1, []⟩).length →
      (∀ c ∈ (⟨"u", [⟨"q1", "a1", ""⟩, ⟨"q2", "a2", ""⟩, ⟨"q3", "a3", ""⟩],
           [⟨"c1", ["q1", "q2"], ["a1", "a2"], "e", true, none⟩], 1, []⟩ : UserSession).contradictions,
        c.resolved = false →
        ∀ qid ∈ c.questionIds,
          qid ∉ (answeredStageQuestions
            [⟨"q1", "t1", 1, [], none⟩, ⟨"q2", "t2", 1, [], none⟩, ⟨"q3", "t3", 1, [], none⟩]
            ⟨"u", [⟨"q1", "a1", ""⟩, ⟨"q2", "a2", ""⟩, ⟨"q3", "a3", ""⟩],
             [⟨"c1", ["q1", "q2"], ["a1", "a2"], "e", true, none⟩], 1, []⟩).map (fun q => q.id)) →
      evaluateStageProgression
        [⟨"q1", "t1", 1, [], none⟩, ⟨"q2", "t2", 1, [], none⟩, ⟨"q3", "t3", 1, [], none⟩]
        [] ⟨"u", [⟨"q1", "a1", ""⟩, ⟨"q2", "a2", ""⟩, ⟨"q3", "a3", ""⟩],
         [⟨"c1", ["q1", "q2"], ["a1", "a2"], "e", true, none⟩], 1, []⟩
        (Except.error ()) = true) :=
  C8_stage_guard
    [⟨"q1", "t1", 1, [], none⟩, ⟨"q2", "t2", 1, [], none⟩, ⟨"q3", "t3", 1, [], none⟩]
    [] ⟨"u", [⟨"q1", "a1", ""⟩, ⟨"q2", "a2", ""⟩, ⟨"q3", "a3", ""⟩],
     [⟨"c1", ["q1", "q2"], ["a1", "a2"], "e", true, none⟩], 1, []⟩
    (Except.error ())

/-! ## Contradiction resolution (`storage.resolveContradiction`,
`lib/core/storage.ts` lines 584–618, and `RAGSystem.resolveContradiction`,
`lib/rag/index.ts` lines 486–527) -/

/-- The index of the first element satisfying the predicate, modelling
JavaScript `findIndex` (with `none` for −1). -/
def firstIdx {α : Type} (p : α → Bool) : List α → Option ℕ
  | [] => none
  | x :: xs => if p x then some 0 else (firstIdx p xs).map (· + 1)

/-- In-place update of the element at an index, modelling the JavaScript
assignments `arr[i].field = ...`. -/
def updateAt {α : Type} : List α → ℕ → (α → α) → List α
  | [], _, _ => []
  | x :: xs, 0, f => f x :: xs
  | x :: xs, n + 1, f => x :: updateAt xs n f

/-- JavaScript truthiness of the optional `resolution.newAnswer`: present
and non-empty. -/
def truthyNewAnswer : Option String → Bool
  | some s => !s.isEmpty
  | none => false

/-- `storage.resolveContradiction`: mark the found contradiction resolved
and store the resolution; overwrite the first answer matching
`overwrittenQuestionId` with `newAnswer` only when such an answer exists
and `newAnswer` is truthy. `none` models the `Contradiction not found`
throw. -/
def storageResolveContradiction (session : UserSession)
    (contradictionId : String) (resolution : Resolution) : Option UserSession :=
  match firstIdx (fun c => c.id = contradictionId) session.contradictions with
  | none => none
  | some ci =>
    let cs := updateAt session.contradictions ci
      (fun c => { c with resolved := true, resolution := some resolution })
    let answers := match firstIdx
        (fun a => a.questionId = resolution.overwrittenQuestionId) session.answers with
      | some ai =>
        if truthyNewAnswer resolution.newAnswer then
          updateAt session.answers ai
            (fun a => { a with answer := resolution.newAnswer.getD "" })
        else session.answers
      | none => session.answers
    some { session with contradictions := cs, answers := answers }

/-- `RAGSystem.resolveContradiction`: check the contradiction exists, build
the resolution record (with the current timestamp), delegate to storage,
and re-read the updated contradiction. -/
def ragResolveContradiction (session : UserSession)
    (contradictionId explanation overwrittenQuestionId : String)
    (newAnswer : Option String) (timestamp : String) :
    Option (UserSession × Contradiction) :=
  match session.contradictions.find? (fun c => c.id = contradictionId) with
  | none => none
  | some _ =>
    match storageResolveContradiction session contradictionId
        ⟨explanation, overwrittenQuestionId, newAnswer, timestamp⟩ with
    | none => none
    | some updated =>
      match updated.contradictions.find? (fun c => c.id = contradictionId) with
      | none => none
      | some updatedContradiction => some (updated, updatedContradiction)

/-! ### Lemmas about indexed updates -/

theorem updateAt_length {α : Type} (l : List α) (i : ℕ) (f : α → α) :
    (updateAt l i f).length = l.length := by
  induction l generalizing i with
  | nil => rfl
  | cons x xs ih =>
    cases i with
    | zero => rfl
    | succ n => simpa [updateAt] using ih n

theorem updateAt_get?_self {α : Type} (l : List α) (i : ℕ) (f : α → α) :
    (updateAt l i f).get? i = (l.get? i).map f := by
  induction l generalizing i with
  | nil => cases i <;> rfl
  | cons x xs ih =>
    cases i with
    | zero => rfl
    | succ n => simpa [updateAt] using ih n

theorem updateAt_get?_other {α : Type} (l : List α) (i k : ℕ) (f : α → α)
    (hk : k ≠ i) : (updateAt l i f).get? k = l.get? k := by
  induction l generalizing i k with
  | nil => cases i <;> rfl
  | cons x xs ih =>
    cases i with
    | zero =>
      cases k with
      | zero => exact absurd rfl hk
      | succ m => rfl
    | succ n =>
      cases k with
      | zero => rfl
      | succ m => simpa [updateAt] using ih n m (by omega)

theorem firstIdx_get? {α : Type} (p : α → Bool) (l : List α) (i : ℕ)
    (h : firstIdx p l = some i) :
    ∃ x, l.get? i = some x ∧ p x = true ∧
      ∀ j, j < i → ∀ y, l.get? j = some y → p y = false := by
  induction l generalizing i with
  | nil => cases h
  | cons a t ih =>
    unfold firstIdx at h
    by_cases hp : p a
    · rw [if_pos hp] at h
      injection h with h
      subst h
      exact ⟨a, rfl, hp, fun j hj => by omega⟩
    · rw [if_neg hp] at h
      rcases ht : firstIdx p t with _ | n
      · rw [ht] at h; cases h
      · rw [ht] at h
        replace h : some (n + 1) = some i := h
        injection h with h
        obtain ⟨x, hx, hpx, hbefore⟩ := ih n ht
        refine ⟨x, by simpa [← h] using hx, hpx, ?_⟩
        intro j hj y hy
        cases j with
        | zero =>
          have : y = a := by injection hy with hy; exact hy.symm
          subst this
          exact Bool.eq_false_iff.mpr hp
        | succ m =>
          apply hbefore m (by omega)
          simpa using hy

theorem find?_updateAt_of_firstIdx {α : Type} (p : α → Bool) (l : List α)
    (i : ℕ) (f : α → α) (hfi : firstIdx p l = some i)
    (hpf : ∀ x, p x = true → p (f x) = true) :
    ∃ x, l.get? i = some x ∧ (updateAt l i f).find? p = some (f x) := by
  induction l generalizing i with
  | nil => cases hfi
  | cons a t ih =>
    unfold firstIdx at hfi
    by_cases hp : p a
    · rw [if_pos hp] at hfi
      injection hfi with hfi
      subst hfi
      refine ⟨a, rfl, ?_⟩
      show List.find? p (f a :: t) = some (f a)
      rw [List.find?_cons_of_pos _ (hpf a hp)]
    · rw [if_neg hp] at hfi
      rcases ht : firstIdx p t with _ | n
      · rw [ht] at hfi; cases hfi
      · rw [ht] at hfi
        replace hfi : some (n + 1) = some i := hfi
        injection hfi with hfi
        obtain ⟨x, hx, hfind⟩ := ih n ht
        refine ⟨x, by simpa [← hfi] using hx, ?_⟩
        subst hfi
        show List.find? p (a :: updateAt t n f) = some (f x)
        rw [List.find?_cons_of_neg _ (by simpa using hp)]
        exact hfind

theorem firstIdx_imp_find? {α : Type} (p : α → Bool) (l : List α) (i : ℕ)
    (h : firstIdx p l = some i) : ∃ x, l.find? p = some x := by
  obtain ⟨x, hx, hpx, _⟩ := firstIdx_get? p l i h
  have hmem : x ∈ l := List.get?_mem hx
  have hs : (l.find? p).isSome := List.find?_isSome.mpr ⟨x, hmem, hpx⟩
  exact Option.isSome_iff_exists.mp hs

/-! ## C9: resolving a contradiction overwrites exactly one answer -/

/-- **C9.** Resolving contradiction `C` with `overwrittenQuestionId = Q`
and new answer text `X` (for a session storing an answer for `Q`) sets the
stored answer text at the first answer for `Q` to `X`, marks `C` resolved
with a resolution record carrying the timestamp, and leaves every other
answer — in particular the other answer of `C`'s pair — unchanged. -/
theorem C9_resolution_overwrites_answer (session : UserSession)
    (contradictionId explanation Q X timestamp : String) (ci ai : ℕ)
    (hci : firstIdx (fun c => c.id = contradictionId) session.contradictions = some ci)
    (hai : firstIdx (fun a => a.questionId = Q) session.answers = some ai)
    (hX : X ≠ "") :
    ∃ c₀, session.contradictions.get? ci = some c₀ ∧
      ragResolveContradiction session contradictionId explanation Q (some X) timestamp
        = some ({ session with
            contradictions := updateAt session.contradictions ci
              (fun c => { c with resolved := true,
                                 resolution := some ⟨explanation, Q, some X, timestamp⟩ }),
            answers := updateAt session.answers ai
              (fun a => { a with answer := X }) },
          { c₀ with resolved := true,
                    resolution := some ⟨explanation, Q, some X, timestamp⟩ }) ∧
      (updateAt session.answers ai (fun a => { a with answer := X })).get? ai
        = (session.answers.get? ai).map (fun a => { a with answer := X }) ∧
      (∀ k, k ≠ ai →
        (updateAt session.answers ai (fun a => { a with answer := X })).get? k
          = session.answers.get? k) := by
  obtain ⟨cfound, hcfound⟩ := firstIdx_imp_find? _ _ _ hci
  obtain ⟨c₀, hc₀, hfindupd⟩ := find?_updateAt_of_firstIdx
    (fun c => c.id = contradictionId) session.contradictions ci
    (fun c => { c with resolved := true,
                       resolution := some ⟨explanation, Q, some X, timestamp⟩ }) hci (fun x hx => by exact hx)
  have htruthy : truthyNewAnswer (some X) = true := by
    have h1 : X.isEmpty = false := by
      cases he : X.isEmpty
      · rfl
      · exact absurd ((String.isEmpty_iff X).mp he) hX
    simp [truthyNewAnswer, h1]
  refine ⟨c₀, hc₀, ?_, updateAt_get?_self _ _ _,
    fun k hk => updateAt_get?_other _ _ _ _ hk⟩
  unfold ragResolveContradiction storageResolveContradiction
  simp only [hcfound, hci, hai, htruthy, if_true, hfindupd, Option.getD_some]

/-- **C9 witness.** A two-answer session with one contradiction: resolving
it with an overwrite of the second answer. -/
theorem C9_resolution_overwrites_answer_witness :
    ∃ c₀, ((⟨"u", [⟨"q1", "a1", ""⟩, ⟨"q2", "a2", ""⟩],
        [⟨"c1", ["q1", "q2"], ["a1", "a2"], "e", false, none⟩], 1,
        []⟩ : UserSession)).contradictions.get? 0 = some c₀ ∧
      ragResolveContradiction
        ⟨"u", [⟨"q1", "a1", ""⟩, ⟨"q2", "a2", ""⟩],
         [⟨"c1", ["q1", "q2"], ["a1", "a2"], "e", false, none⟩], 1, []⟩
        "c1" "changed my mind" "q2" (some "new text") "ts"
        = some ({ (⟨"u", [⟨"q1", "a1", ""⟩, ⟨"q2", "a2", ""⟩],
            [⟨"c1", ["q1", "q2"], ["a1", "a2"], "e", false, none⟩], 1,
            []⟩ : UserSession) with
            contradictions := updateAt
              [⟨"c1", ["q1", "q2"], ["a1", "a2"], "e", false, none⟩] 0
              (fun c => { c with resolved := true,
                                 resolution := some ⟨"changed my mind", "q2", some "new text", "ts"⟩ }),
            answers := updateAt [⟨"q1", "a1", ""⟩, ⟨"q2", "a2", ""⟩] 1
              (fun a => { a with answer := "new text" }) },
          { c₀ with resolved := true,
                    resolution := some ⟨"changed my mind", "q2", some "new text", "ts"⟩ }) ∧
      (updateAt [⟨"q1", "a1", ""⟩, ⟨"q2", "a2", ""⟩] 1
          (fun a => { a with answer := "new text" })).get? 1
        = (([⟨"q1", "a1", ""⟩, ⟨"q2", "a2", ""⟩] : List UserAnswer).get? 1).map
            (fun a => { a with answer := "new text" }) ∧
      (∀ k, k ≠ 1 →
        (updateAt [⟨"q1", "a1", ""⟩, ⟨"q2", "a2", ""⟩] 1
            (fun a => { a with answer := "new text" })).get? k
          = ([⟨"q1", "a1", ""⟩, ⟨"q2", "a2", ""⟩] : List UserAnswer).get? k) :=
  C9_resolution_overwrites_answer
    ⟨"u", [⟨"q1", "a1", ""⟩, ⟨"q2", "a2", ""⟩],
     [⟨"c1", ["q1", "q2"], ["a1", "a2"], "e", false, none⟩], 1, []⟩
    "c1" "changed my mind" "q2" "new text" "ts" 0 1 rfl rfl (by decide)

/-! ## C10: resolution succeeds without an overwritable answer -/

/-- **C10.** Resolving with an `overwrittenQuestionId` matching no stored
answer, or with the `newAnswer` argument absent, still succeeds: the
contradiction is marked resolved and the resolution record stored, and the
session's answer list is left completely unchanged. -/
theorem C10_resolution_without_overwrite (session : UserSession)
    (contradictionId explanation Q timestamp : String)
    (newAnswer : Option String) (ci : ℕ)
    (hci : firstIdx (fun c => c.id = contradictionId) session.contradictions = some ci)
    (hmiss : firstIdx (fun a => a.questionId = Q) session.answers = none ∨
      newAnswer = none) :
    ∃ c₀, session.contradictions.get? ci = some c₀ ∧
      ragResolveContradiction session contradictionId explanation Q newAnswer timestamp
        = some ({ session with
            contradictions := updateAt session.contradictions ci
              (fun c => { c with resolved := true,
                                 resolution := some ⟨explanation, Q, newAnswer, timestamp⟩ }) },
          { c₀ with resolved := true,
                    resolution := some ⟨explanation, Q, newAnswer, timestamp⟩ }) := by
  obtain ⟨cfound, hcfound⟩ := firstIdx_imp_find? _ _ _ hci
  obtain ⟨c₀, hc₀, hfindupd⟩ := find?_updateAt_of_firstIdx
    (fun c => c.id = contradictionId) session.contradictions ci
    (fun c => { c with resolved := true,
                       resolution := some ⟨explanation, Q, newAnswer, timestamp⟩ }) hci (fun x hx => by exact hx)
  refine ⟨c₀, hc₀, ?_⟩
  unfold ragResolveContradiction storageResolveContradiction
  rcases hmiss with hnone | hnone
  · simp only [hcfound, hci, hnone, hfindupd]
  · subst hnone
    have hfalsy : truthyNewAnswer none = false := rfl
    rcases hfa : firstIdx (fun a => a.questionId = Q) session.answers with _ | ai
    · simp only [hcfound, hci, hfa, hfindupd]
    · simp only [hcfound, hci, hfa, hfalsy, Bool.false_eq_true, if_false, hfindupd]

/-- **C10 witness.** Resolving with an absent `newAnswer` and a question id
matching no stored answer: the operation succeeds and the answer list stays
untouched. -/
theorem C10_resolution_without_overwrite_witness :
    ∃ c₀, ((⟨"u", [⟨"q1", "a1", ""⟩],
        [⟨"c1", ["q1", "q2"], ["a1", "a2"], "e", false, none⟩], 1,
        []⟩ : UserSession)).contradictions.get? 0 = some c₀ ∧
      ragResolveContradiction
        ⟨"u", [⟨"q1", "a1", ""⟩],
         [⟨"c1", ["q1", "q2"], ["a1", "a2"], "e", false, none⟩], 1, []⟩
        "c1" "keep both" "qz" none "ts"
        = some ({ (⟨"u", [⟨"q1", "a1", ""⟩],
            [⟨"c1", ["q1", "q2"], ["a1", "a2"], "e", false, none⟩], 1,
            []⟩ : UserSession) with
            contradictions := updateAt
              [⟨"c1", ["q1", "q2"], ["a1", "a2"], "e", false, none⟩] 0
              (fun c => { c with resolved := true,
                                 resolution := some ⟨"keep both", "qz", none, "ts"⟩ }) },
          { c₀ with resolved := true,
                    resolution := some ⟨"keep both", "qz", none, "ts"⟩ }) :=
  C10_resolution_without_overwrite
    ⟨"u", [⟨"q1", "a1", ""⟩],
     [⟨"c1", ["q1", "q2"], ["a1", "a2"], "e", false, none⟩], 1, []⟩
    "c1" "keep both" "qz" "ts" none 0 rfl (Or.inr rfl)

end GoodFaith
